import Mathlib

/-!
# Network simulation backend (`src/backend/server.js`)

A shallow embedding of the routing-and-simulation engine of the server:
the two breadth-first path finders (`findPath` over the client-configured
`connections`, `findPathByName` over the built-in `links`), the packet
registry with its `advance` tick, the `send-packet` and `set-network`
handlers and the `simulate-interval` handler with its random destination
draws.
-/

namespace NetSim

set_option linter.unusedSectionVars false

/-! ## Data model -/

/-- An edge record `{ from, to }` (server.js lines 24-31 and the elements of
`connections`).  The field names carry a trailing underscore because `from`
is reserved. -/
structure Conn (α : Type) where
  from_ : α
  to_ : α
  deriving DecidableEq, Repr

/-- An entry of the built-in `links` table, `{ from, to, capacity }`. -/
structure Link where
  from_ : String
  to_ : String
  capacity : Nat
  deriving DecidableEq, Repr

/-- The constant `links` of server.js lines 24-31. -/
def links : List Link :=
  [ { from_ := "A", to_ := "B", capacity := 100 },
    { from_ := "A", to_ := "C", capacity := 80 },
    { from_ := "B", to_ := "D", capacity := 70 },
    { from_ := "C", to_ := "D", capacity := 90 },
    { from_ := "C", to_ := "E", capacity := 100 },
    { from_ := "D", to_ := "E", capacity := 60 } ]

/-- The `from`/`to` part of the `links` table: the only fields that
`findPathByName` reads (the capacity is never consulted). -/
def linkConns : List (Conn String) :=
  links.map (fun l => { from_ := l.from_, to_ := l.to_ })

/-! ## Path finder -/

section PathFinder

variable {α : Type} [DecidableEq α]

/-- The `neighbors` expression of lines 50-52 (and 130-132):
`edges.filter(c => c.from === last || c.to === last)
      .map(c => (c.from === last ? c.to : c.from))`. -/
def neighbors (edges : List (Conn α)) (last : α) : List α :=
  (edges.filter (fun c => decide (c.from_ = last) || decide (c.to_ = last))).map
    (fun c => if c.from_ = last then c.to_ else c.from_)

/-- The `while (queue.length)` loop of lines 45-57 (and 125-137), one
iteration per unit of fuel.  The outer `Option` is `none` when the fuel is
used up before the loop has finished; `some none` is the `return null` after
the loop and `some (some path)` the `return path` inside it.

`queue.shift()` takes the head of the queue, `visited.add(last)` is modelled
by consing onto a list that is only ever tested for membership, and
`queue.push([...path, n])` appends `path ++ [n]` at the back for every
neighbour `n` that is not visited, in the order of the `neighbors` array.
Queue entries are never empty (the queue starts as `[[from]]` and only ever
receives `path ++ [n]`), so the branch for an empty entry, which just drops
it, is never taken. -/
def bfsLoop (edges : List (Conn α)) (to_ : α) :
    Nat → List (List α) → List α → Option (Option (List α))
  | 0, _, _ => none
  | _ + 1, [], _ => some none
  | fuel + 1, path :: queue, visited =>
    match path.getLast? with
    | none => bfsLoop edges to_ fuel queue visited
    | some last =>
      if last = to_ then some (some path)
      else
        let visited := last :: visited
        bfsLoop edges to_ fuel
          (queue ++ ((neighbors edges last).filter (fun n => decide (n ∉ visited))).map
            (fun n => path ++ [n]))
          visited

/-- Geometric bound used for the fuel: `iterBound d 0 = 1`,
`iterBound d (g + 1) = 1 + d * iterBound d g`. -/
def iterBound (d : Nat) : Nat → Nat
  | 0 => 1
  | g + 1 => 1 + d * iterBound d g

/-- All endpoints mentioned by the edge list. -/
def endpoints (edges : List (Conn α)) : List α :=
  edges.flatMap (fun c => [c.from_, c.to_])

/-- A number of loop iterations that the search never exceeds (proved below
in `bfsLoop_fuel_enough`). -/
def searchFuel (edges : List (Conn α)) : Nat :=
  iterBound edges.length (endpoints edges).length + 1

/-- The body shared by `findPath` and `findPathByName`: the loop started on
`queue = [[from]]`, `visited = new Set()`.  The result `none` is `null`. -/
def bfs (edges : List (Conn α)) (from_ to_ : α) : Option (List α) :=
  (bfsLoop edges to_ (searchFuel edges) [[from_]] []).join

/-- The function `findPath(from, to)` of lines 42-58; the global
`connections` it reads is passed as the first argument. -/
def findPath (connections : List (Conn α)) (from_ to_ : α) : Option (List α) :=
  bfs connections from_ to_

end PathFinder

/-- The function `findPathByName(from, to)` of lines 122-138: the same loop
over the constant `links`. -/
def findPathByName (from_ to_ : String) : Option (List String) :=
  bfs linkConns from_ to_

/-! ## Graph notions used to state the path-finder properties -/

section Graph

variable {α : Type} [DecidableEq α]

/-- Nodes `a` and `b` are the two endpoints of some edge of the list, in
either orientation. -/
def Adj (edges : List (Conn α)) (a b : α) : Prop :=
  ∃ c ∈ edges, (c.from_ = a ∧ c.to_ = b) ∨ (c.to_ = a ∧ c.from_ = b)

instance (edges : List (Conn α)) (a b : α) : Decidable (Adj edges a b) :=
  inferInstanceAs (Decidable (∃ c ∈ edges, (c.from_ = a ∧ c.to_ = b) ∨ (c.to_ = a ∧ c.from_ = b)))

/-- A list of nodes that starts at `from_` and in which every two consecutive
elements are joined by an edge. -/
def WalkFrom (edges : List (Conn α)) (from_ : α) (w : List α) : Prop :=
  w.head? = some from_ ∧ w.Chain' (Adj edges)

/-- A walk of the undirected graph from `from_` to `to_`, endpoints
included. -/
def IsWalk (edges : List (Conn α)) (from_ to_ : α) (w : List α) : Prop :=
  w.head? = some from_ ∧ w.getLast? = some to_ ∧ w.Chain' (Adj edges)

/-- Node `to_` is reachable from `from_`: some walk joins them. -/
def Reachable (edges : List (Conn α)) (from_ to_ : α) : Prop :=
  ∃ w, IsWalk edges from_ to_ w

/-- Node `v` is reached from `from_` by a walk of exactly `h` hops. -/
inductive ReachIn (edges : List (Conn α)) (from_ : α) : Nat → α → Prop
  | refl : ReachIn edges from_ 0 from_
  | step {h : Nat} {x v : α} : ReachIn edges from_ h x → Adj edges x v →
      ReachIn edges from_ (h + 1) v

end Graph

/-! ## Values, packets and the server state -/

/-- The JSON values the handlers pass around (node labels, payloads),
compared with `===`: primitives by value, objects and arrays by reference
(`ref k` is the `k`-th object allocated by the body parser).  Numbers are
the integers; the server does no arithmetic on client values. -/
inductive Val where
  | undefined
  | null
  | bool (b : Bool)
  | num (n : Int)
  | str (s : String)
  | ref (k : Nat)
  deriving DecidableEq, Repr

/-- A packet record (lines 78-85 and 105-112).  The `id` is
`Date.now() + Math.random()`; the model carries it as a token supplied by the
environment. -/
structure Packet where
  id : Nat
  from_ : Val
  to_ : Val
  path : List Val
  payload : Val
  progress : Int
  deriving DecidableEq, Repr

/-- The module-level variables `nodes`, `connections`, `packets` and
`timeIndex` (lines 10-12 and 22). -/
structure State where
  nodes : List Val
  connections : List (Conn Val)
  packets : List Packet
  timeIndex : Nat
  deriving DecidableEq, Repr

/-- The state right after the module is loaded. -/
def State.init : State :=
  { nodes := [], connections := [], packets := [], timeIndex := 0 }

/-- The constant `trafficRates` (lines 15-20), as the ordered list of its
entries; `Object.entries` enumerates the keys in this order. -/
def trafficRates : List (String × List (String × Nat)) :=
  [ ("08:00", [("A", 50), ("B", 30), ("C", 40), ("D", 20), ("E", 60)]),
    ("08:15", [("A", 55), ("B", 35), ("C", 45), ("D", 25), ("E", 65)]),
    ("08:30", [("A", 60), ("B", 40), ("C", 50), ("D", 30), ("E", 70)]),
    ("08:45", [("A", 55), ("B", 35), ("C", 45), ("D", 25), ("E", 65)]) ]

/-- The constant `trafficTimes = Object.keys(trafficRates)` (line 21). -/
def trafficTimes : List String :=
  trafficRates.map Prod.fst

/-- The function `getNodeName(idx)` (lines 34-36):
`String.fromCharCode(65 + idx)`, whose argument is taken modulo `2^16`.  A
code unit in the surrogate range, which JavaScript keeps as a lone surrogate,
becomes the character 0 here; either way the name is none of `A` to `E`. -/
def getNodeName (idx : Nat) : String :=
  String.singleton (Char.ofNat ((65 + idx) % 65536))

/-- The function `getNodeIndex(name)` (lines 37-39):
`name.charCodeAt(0) - 65`.  It is only ever applied to the one-letter names
of the `links` table and of the rate table. -/
def getNodeIndex (name : String) : Int :=
  ((name.get 0).toNat : Int) - 65

/-! ## Handlers -/

/-- The body of `GET /api/network` (lines 61-63): `nodes`, `connections`,
`time: trafficTimes[timeIndex]` (`none` is `undefined`) and
`interval: timeIndex`. -/
def getNetwork (s : State) : List Val × List (Conn Val) × Option String × Nat :=
  (s.nodes, s.connections, trafficTimes[s.timeIndex]?, s.timeIndex)

/-- The handler `POST /api/network` (lines 66-70): `nodes = req.body.nodes || []`,
`connections = req.body.connections || []`; a missing field is `none`. -/
def setNetwork (s : State) (nodes : Option (List Val))
    (connections : Option (List (Conn Val))) : State :=
  { s with nodes := nodes.getD [], connections := connections.getD [] }

/-- The response of `POST /api/send-packet`. -/
inductive SendResponse where
  | error (status : Nat) (message : String)
  | success (packet : Packet)
  deriving DecidableEq, Repr

/-- The handler `POST /api/send-packet` (lines 73-88).  `id` is the value of
`Date.now() + Math.random()` at the call. -/
def sendPacket (s : State) (from_ to_ payload : Val) (id : Nat) : State × SendResponse :=
  match findPath s.connections from_ to_ with
  | none => (s, SendResponse.error 400 "No path found")
  | some path =>
    let packet : Packet :=
      { id := id, from_ := from_, to_ := to_, path := path, payload := payload, progress := 0 }
    ({ s with packets := s.packets ++ [packet] }, SendResponse.success packet)

/-- The two statements of `POST /api/advance` on the registry (lines
147-154): the `map` that moves packets on, then the `filter`. -/
def advancePackets (packets : List Packet) : List Packet :=
  let packets := packets.map (fun pkt =>
    if pkt.progress < (pkt.path.length : Int) - 1 then
      { pkt with progress := pkt.progress + 1 }
    else pkt)
  packets.filter (fun pkt => decide (pkt.progress < (pkt.path.length : Int)))

/-- The handler `POST /api/advance` (lines 146-156): the new state and the
`packets` of the response. -/
def advance (s : State) : State × List Packet :=
  let packets := advancePackets s.packets
  ({ s with packets := packets }, packets)

/-- The registry after `n` consecutive `advance` calls. -/
def advanceN : Nat → List Packet → List Packet
  | 0, packets => packets
  | n + 1, packets => advanceN n (advancePackets packets)

/-- One value of `Math.random()`: the number `num / den` of `[0, 1)`. -/
structure Draw where
  num : Nat
  den : Nat
  lt : num < den
  deriving DecidableEq

/-- The expression `Math.floor(Math.random() * nodes.length)` for the draw
`d` and `nodes.length = n`. -/
def Draw.index (d : Draw) (n : Nat) : Nat :=
  d.num * n / d.den

/-- The `do ... while (dest === nodeName)` loop of lines 98-101, reading the
successive values of `Math.random()` from a list: the destination picked and
the draws left over, or `none` when the loop is still running after the last
draw of the list. -/
def pickDest (nodesLength : Nat) (nodeName : String) : List Draw → Option (String × List Draw)
  | [] => none
  | d :: draws =>
    let dest := getNodeName (d.index nodesLength)
    if dest = nodeName then pickDest nodesLength nodeName draws else some (dest, draws)

/-- One iteration of the `for` loop of lines 97-114 for the source
`nodeName`: pick a destination, search a path over `links`, push the packet
when there is one.  `ids n` is the value `Date.now() + Math.random()` used for
a packet pushed onto a registry of `n` packets.  `none`: the destination loop
outlives the draws. -/
def simulateUnit (ids : Nat → Nat) (time nodeName : String) (st : State × List Draw) :
    Option (State × List Draw) :=
  match pickDest st.1.nodes.length nodeName st.2 with
  | none => none
  | some (dest, draws) =>
    match findPathByName nodeName dest with
    | some path =>
      let packet : Packet :=
        { id := ids st.1.packets.length,
          from_ := Val.num (getNodeIndex nodeName),
          to_ := Val.num (getNodeIndex dest),
          path := path.map (fun n => Val.num (getNodeIndex n)),
          payload := Val.str ("Auto " ++ time),
          progress := 0 }
      some ({ st.1 with packets := st.1.packets ++ [packet] }, draws)
    | none => some (st.1, draws)

/-- The loop `for (let i = 0; i < rate; i++)` of lines 97-114. -/
def simulateNode (ids : Nat → Nat) (time nodeName : String) :
    Nat → State × List Draw → Option (State × List Draw)
  | 0, st => some st
  | rate + 1, st => (simulateUnit ids time nodeName st).bind (simulateNode ids time nodeName rate)

/-- The `Object.entries(rates).forEach(...)` of lines 95-115. -/
def simulateEntries (ids : Nat → Nat) (time : String) :
    List (String × Nat) → State × List Draw → Option (State × List Draw)
  | [], st => some st
  | (nodeName, rate) :: entries, st =>
    (simulateNode ids time nodeName rate st).bind (simulateEntries ids time entries)

/-- How a call of `POST /api/simulate-interval` ends. -/
inductive SimResult where
  /-- The handler answered: new state, `time` of the response (`none` is
  `undefined`), draws left over. -/
  | done (s : State) (time : Option String) (rest : List Draw)
  /-- A destination loop is still running after the last draw supplied. -/
  | running
  /-- `Object.entries(undefined)` threw (`timeIndex` outside the table). -/
  | typeError

/-- The handler `POST /api/simulate-interval` (lines 91-119; the second
registration of the same route at lines 159-190 is never reached, the first
handler answers every request). -/
def simulateInterval (ids : Nat → Nat) (s : State) (draws : List Draw) : SimResult :=
  match trafficTimes[s.timeIndex]? with
  | none => SimResult.typeError
  | some time =>
    match trafficRates.lookup time with
    | none => SimResult.typeError
    | some rates =>
      match simulateEntries ids time rates (s, draws) with
      | none => SimResult.running
      | some (s, rest) =>
        let timeIndex := (s.timeIndex + 1) % trafficTimes.length
        SimResult.done { s with timeIndex := timeIndex } trafficTimes[timeIndex]? rest

/-- One request handled by the server. -/
inductive Step : State → State → Prop
  | setNetwork (s : State) (nodes : Option (List Val)) (connections : Option (List (Conn Val))) :
      Step s (setNetwork s nodes connections)
  | sendPacket (s : State) (from_ to_ payload : Val) (id : Nat) :
      Step s (sendPacket s from_ to_ payload id).1
  | simulateInterval (s : State) (ids : Nat → Nat) (draws : List Draw) (s' : State)
      (time : Option String) (rest : List Draw) :
      simulateInterval ids s draws = SimResult.done s' time rest → Step s s'
  | advance (s : State) : Step s (advance s).1

/-- The states the server can be in: the initial one and those reached from
it by any sequence of requests. -/
inductive ReachableState : State → Prop
  | init : ReachableState State.init
  | step {s s' : State} : ReachableState s → Step s s' → ReachableState s'

/-- The packet invariant of the data model. -/
def PacketOk (pkt : Packet) : Prop :=
  0 ≤ pkt.progress ∧ pkt.progress < (pkt.path.length : Int) ∧
    pkt.path.head? = some pkt.from_ ∧ pkt.path.getLast? = some pkt.to_

/-- The packets one demand unit of source `nodeName` can push during an
interval labelled `time`, with `nodesLength` configured nodes. -/
def UnitPacket (time nodeName : String) (nodesLength : Nat) (pkt : Packet) : Prop :=
  pkt.progress = 0 ∧ pkt.payload = Val.str ("Auto " ++ time) ∧
    pkt.from_ = Val.num (getNodeIndex nodeName) ∧
    ∃ dest, dest ≠ nodeName ∧ (∃ d : Draw, dest = getNodeName (d.index nodesLength)) ∧
      pkt.to_ = Val.num (getNodeIndex dest)

/-- Consecutive calls of `POST /api/simulate-interval`, one per element of the
list (the id supply and the draws of that call); `none` when one of them
does not answer. -/
def simulateCalls : List ((Nat → Nat) × List Draw) → State → Option State
  | [], s => some s
  | call :: calls, s =>
    match simulateInterval call.1 s call.2 with
    | SimResult.done s' _ _ => simulateCalls calls s'
    | _ => none

/-- The packets pushed for one entry `(nodeName, rate)` of the rate table:
at most `rate` of them, each one a unit packet of that source, and exactly
`rate` when at most five nodes are configured and the source is a backbone
name. -/
def BlockOk (time : String) (nodesLength : Nat) (entry : String × Nat)
    (block : List Packet) : Prop :=
  block.length ≤ entry.2 ∧ (∀ pkt ∈ block, UnitPacket time entry.1 nodesLength pkt) ∧
    (nodesLength ≤ 5 → entry.1 ∈ ["A", "B", "C", "D", "E"] → block.length = entry.2)

/-- Whether the call answered. -/
def SimResult.isDone : SimResult → Bool
  | SimResult.done _ _ _ => true
  | _ => false

/-- Sample draws for a call with two configured nodes: `1/2` picks `B` for
the `a` units of source `A` and `0/1` picks `A` for all the others. -/
def sampleDraws (a others : Nat) : List Draw :=
  List.replicate a ⟨1, 2, by decide⟩ ++ List.replicate others ⟨0, 1, by decide⟩

/-- A draw on which the destination loop of source `nodeName` exits at once
when `n ≥ 2` nodes are configured: `1/n` (index 1, the name `B`) for the
source `A`, `0/1` (index 0, the name `A`) for any other source. -/
def exitDraw (n : Nat) (nodeName : String) : Draw :=
  if h : nodeName = "A" ∧ 1 < n then ⟨1, n, h.2⟩ else ⟨0, 1, by decide⟩

/-- One such draw for every demand unit of a rate table, in the order in
which the units are generated. -/
def exitDraws (n : Nat) (entries : List (String × Nat)) : List Draw :=
  entries.flatMap (fun e => List.replicate e.2 (exitDraw n e.1))

/-! ## A search that marks nodes when they are enqueued -/

section EnqueueMarking

variable {α : Type} [DecidableEq α]

/-- The `for (const n of neighbors)` loop of a search that records a node as
visited when it is enqueued: a neighbour that is not visited is marked and
`path ++ [n]` is pushed; a visited one is skipped. -/
def enqueueNew (path : List α) : List α → List (List α) × List α → List (List α) × List α
  | [], st => st
  | n :: ns, (queue, visited) =>
    if n ∈ visited then enqueueNew path ns (queue, visited)
    else enqueueNew path ns (queue ++ [path ++ [n]], n :: visited)

/-- The loop of `bfsLoop` with that one change: nodes are marked by
`enqueueNew` instead of on dequeue, so no node is enqueued twice. -/
def bfsLoopEnq (edges : List (Conn α)) (to_ : α) :
    Nat → List (List α) → List α → Option (Option (List α))
  | 0, _, _ => none
  | _ + 1, [], _ => some none
  | fuel + 1, path :: queue, visited =>
    match path.getLast? with
    | none => bfsLoopEnq edges to_ fuel queue visited
    | some last =>
      if last = to_ then some (some path)
      else
        let st := enqueueNew path (neighbors edges last) (queue, visited)
        bfsLoopEnq edges to_ fuel st.1 st.2

/-- The reference search of the comparison: the start node is marked when it
is enqueued, so the loop starts on `queue = [[from]]`, `visited = {from}`. -/
def findPathMarkOnEnqueue (connections : List (Conn α)) (from_ to_ : α) : Option (List α) :=
  (bfsLoopEnq connections to_ (searchFuel connections) [[from_]] [from_]).join

/-- The last nodes of the entries of a queue. -/
def lastsOf (queue : List (List α)) : List α :=
  queue.filterMap List.getLast?

/-- The entries of a queue of `bfsLoop` that reach their last node first:
the entries whose last node is neither visited nor the last node of an
earlier entry. -/
def firstArrivals (visited : List α) : List (List α) → List (List α)
  | [] => []
  | p :: ps =>
    match p.getLast? with
    | none => firstArrivals visited ps
    | some x => if x ∈ visited then firstArrivals visited ps else p :: firstArrivals (x :: visited) ps

/-- The relation between a state of `bfsLoop` (`ql`, `vl`) and the state of
`bfsLoopEnq` (`qs`, `vs`) that it corresponds to. -/
structure EnqSim (edges : List (Conn α)) (to_ : α) (ql : List (List α)) (vl : List α)
    (qs : List (List α)) (vs : List α) : Prop where
  queue : qs = firstArrivals vl ql
  marked : ∀ x, x ∈ vs ↔ x ∈ vl ∨ x ∈ lastsOf ql
  closed : ∀ y ∈ vl, ∀ n, Adj edges y n → n ∈ vl ∨ n ∈ lastsOf ql
  target : to_ ∉ vl
  nonempty : ∀ p ∈ ql, p ≠ []

/-- A connection with its two fields exchanged. -/
def Conn.swap (c : Conn α) : Conn α :=
  { from_ := c.to_, to_ := c.from_ }

/-- The connection list in which the connections selected by the mask (by
position) have their fields exchanged. -/
def swapSome : List Bool → List (Conn α) → List (Conn α)
  | _, [] => []
  | [], cs => cs
  | b :: bs, c :: cs => (if b then c.swap else c) :: swapSome bs cs

end EnqueueMarking

/-! ## Termination measure of the search loop -/

section Measure

variable {α : Type} [DecidableEq α]

/-- The entries pushed while `path` (ending in `last`) is processed, with
`visited` already containing `last`. -/
def children (edges : List (Conn α)) (visited : List α) (path : List α) (last : α) :
    List (List α) :=
  ((neighbors edges last).filter (fun n => decide (n ∉ visited))).map (fun n => path ++ [n])

/-- Number of endpoint occurrences that are neither visited nor the last
node of `path`. -/
def unseen (edges : List (Conn α)) (visited path : List α) : Nat :=
  ((endpoints edges).filter
    (fun v => decide (v ∉ visited) && decide (some v ≠ path.getLast?))).length

/-- Bound on the number of iterations caused by one queue entry. -/
def pathWeight (edges : List (Conn α)) (visited path : List α) : Nat :=
  iterBound edges.length (unseen edges visited path)

/-- Bound on the number of iterations left for a whole queue. -/
def queueWeight (edges : List (Conn α)) (visited : List α) (queue : List (List α)) : Nat :=
  (queue.map (pathWeight edges visited)).sum

/-- The invariant of the search loop.  The queue is `q₁ ++ q₂`: `q₁` holds
the entries of the current level (`lvl` hops), `q₂` those of the next one. -/
structure BfsInv (edges : List (Conn α)) (from_ to_ : α) (lvl : Nat)
    (q₁ q₂ : List (List α)) (visited : List α) : Prop where
  len₁ : ∀ p ∈ q₁, p.length = lvl + 1
  len₂ : ∀ p ∈ q₂, p.length = lvl + 2
  walk : ∀ p ∈ q₁ ++ q₂, WalkFrom edges from_ p
  below : ∀ h, h < lvl → ∀ v, ReachIn edges from_ h v → v ∈ visited
  level : ∀ v, ReachIn edges from_ lvl v → v ∈ visited ∨ ∃ q ∈ q₁, q.getLast? = some v
  closed : ∀ x ∈ visited, ∀ v, Adj edges x v →
    v ∈ visited ∨ ∃ q ∈ q₁ ++ q₂, q.getLast? = some v
  target : to_ ∉ visited

end Measure

/-! # Properties -/

section PathFinderProofs

variable {α : Type} [DecidableEq α]

theorem mem_neighbors (edges : List (Conn α)) (a b : α) :
    b ∈ neighbors edges a ↔ Adj edges a b := by
  unfold neighbors Adj
  simp only [List.mem_map, List.mem_filter, Bool.or_eq_true, decide_eq_true_eq]
  constructor
  · rintro ⟨c, ⟨hc, hf⟩, rfl⟩
    refine ⟨c, hc, ?_⟩
    by_cases h : c.from_ = a
    · simp [h]
    · rcases hf with hf | hf
      · exact absurd hf h
      · simp [h, hf]
  · rintro ⟨c, hc, ⟨h1, h2⟩ | ⟨h1, h2⟩⟩
    · exact ⟨c, ⟨hc, Or.inl h1⟩, by simp [h1, h2]⟩
    · refine ⟨c, ⟨hc, Or.inr h1⟩, ?_⟩
      by_cases h : c.from_ = a
      · simp [h]; rw [← h2, h, h1]
      · have hba : ¬ b = a := fun e => h (h2.trans e)
        simp only [h2, hba, if_false]

theorem neighbors_length_le (edges : List (Conn α)) (a : α) :
    (neighbors edges a).length ≤ edges.length := by
  unfold neighbors
  rw [List.length_map]
  exact List.length_filter_le _ _

theorem mem_endpoints_of_adj {edges : List (Conn α)} {a b : α} (h : Adj edges a b) :
    b ∈ endpoints edges := by
  obtain ⟨c, hc, h⟩ := h
  unfold endpoints
  rw [List.mem_flatMap]
  refine ⟨c, hc, ?_⟩
  rcases h with ⟨_, h⟩ | ⟨_, h⟩ <;> simp [h]

theorem iterBound_pos (d g : Nat) : 1 ≤ iterBound d g := by
  cases g <;> simp [iterBound]

theorem iterBound_le_succ (d g : Nat) : iterBound d g ≤ iterBound d (g + 1) := by
  induction g with
  | zero => simp [iterBound]
  | succ j ihj =>
    rw [iterBound, iterBound.eq_2 d (j + 1)]
    exact Nat.add_le_add_left (Nat.mul_le_mul_left d ihj) 1

theorem iterBound_mono (d : Nat) {g g' : Nat} (h : g ≤ g') :
    iterBound d g ≤ iterBound d g' := by
  induction h with
  | refl => exact le_refl _
  | step _ ih => exact le_trans ih (iterBound_le_succ d _)

theorem length_filter_lt_of_imp {l : List α} {P Q : α → Bool} (h : ∀ a, P a = true → Q a = true)
    {n : α} (hn : n ∈ l) (hQ : Q n = true) (hP : P n = false) :
    (l.filter P).length < (l.filter Q).length := by
  induction l with
  | nil => cases hn
  | cons a l ih =>
    have hle : (l.filter P).length ≤ (l.filter Q).length :=
      (List.monotone_filter_right l h).length_le
    rcases List.mem_cons.1 hn with rfl | hn
    · simp only [List.filter_cons, hQ, hP, if_true, List.length_cons]
      simpa using Nat.lt_succ_of_le hle
    · have := ih hn
      by_cases hPa : P a = true
      · simp only [List.filter_cons, hPa, h a hPa, if_true, List.length_cons]
        omega
      · by_cases hQa : Q a = true
        · simp only [List.filter_cons, hPa, hQa, if_true, List.length_cons]
          simp; omega
        · simp only [List.filter_cons, hPa, hQa]
          simpa using this

theorem unseen_anti (edges : List (Conn α)) {visited visited' : List α} (path : List α)
    (h : ∀ v, v ∈ visited → v ∈ visited') :
    unseen edges visited' path ≤ unseen edges visited path := by
  unfold unseen
  refine (List.monotone_filter_right _ ?_).length_le
  intro v hv
  simp only [Bool.and_eq_true, decide_eq_true_eq] at hv ⊢
  exact ⟨fun hm => hv.1 (h v hm), hv.2⟩

theorem unseen_child {edges : List (Conn α)} {visited path : List α} {last n : α}
    (hl : path.getLast? = some last) (hn : n ∈ endpoints edges) (hnv : n ∉ last :: visited) :
    unseen edges (last :: visited) (path ++ [n]) < unseen edges visited path := by
  unfold unseen
  have hnl : n ≠ last := fun e => hnv (by simp [e])
  have hnv' : n ∉ visited := fun e => hnv (List.mem_cons_of_mem _ e)
  refine length_filter_lt_of_imp ?_ hn ?_ ?_
  · intro v hv
    simp only [Bool.and_eq_true, decide_eq_true_eq, List.mem_cons, not_or, hl] at hv ⊢
    exact ⟨hv.1.2, fun e => hv.1.1 (Option.some.inj e)⟩
  · simp only [Bool.and_eq_true, decide_eq_true_eq, hl]
    exact ⟨hnv', fun e => hnl (Option.some.inj e)⟩
  · simp

theorem queueWeight_anti (edges : List (Conn α)) {visited visited' : List α}
    (queue : List (List α)) (h : ∀ v, v ∈ visited → v ∈ visited') :
    queueWeight edges visited' queue ≤ queueWeight edges visited queue := by
  unfold queueWeight
  induction queue with
  | nil => simp
  | cons p q ih =>
    simp only [List.map_cons, List.sum_cons]
    exact Nat.add_le_add (iterBound_mono _ (unseen_anti edges p h)) ih

theorem queueWeight_append (edges : List (Conn α)) (visited : List α)
    (q₁ q₂ : List (List α)) :
    queueWeight edges visited (q₁ ++ q₂) =
      queueWeight edges visited q₁ + queueWeight edges visited q₂ := by
  simp [queueWeight]

theorem mem_children {edges : List (Conn α)} {visited path : List α} {last : α}
    {q : List α} :
    q ∈ children edges visited path last ↔
      ∃ n, Adj edges last n ∧ n ∉ visited ∧ q = path ++ [n] := by
  unfold children
  simp only [List.mem_map, List.mem_filter, decide_eq_true_eq, mem_neighbors]
  constructor
  · rintro ⟨n, ⟨h1, h2⟩, rfl⟩
    exact ⟨n, h1, h2, rfl⟩
  · rintro ⟨n, h1, h2, rfl⟩
    exact ⟨n, ⟨h1, h2⟩, rfl⟩

theorem children_length_le (edges : List (Conn α)) (visited path : List α) (last : α) :
    (children edges visited path last).length ≤ edges.length := by
  unfold children
  rw [List.length_map]
  exact le_trans (List.length_filter_le _ _) (neighbors_length_le edges last)

theorem queueWeight_children {edges : List (Conn α)} {visited path : List α} {last : α}
    (hl : path.getLast? = some last) :
    queueWeight edges (last :: visited) (children edges (last :: visited) path last) + 1
      ≤ pathWeight edges visited path := by
  have hchild : ∀ q ∈ children edges (last :: visited) path last,
      unseen edges (last :: visited) q < unseen edges visited path := by
    intro q hq
    obtain ⟨n, hadj, hnv, rfl⟩ := mem_children.1 hq
    exact unseen_child hl (mem_endpoints_of_adj hadj) hnv
  unfold pathWeight
  cases hg : unseen edges visited path with
  | zero =>
    have hnil : children edges (last :: visited) path last = [] := by
      cases hc : children edges (last :: visited) path last with
      | nil => rfl
      | cons q _ =>
        have := hchild q (by simp [hc])
        omega
    simp [hnil, queueWeight, iterBound]
  | succ g =>
    have hsum : queueWeight edges (last :: visited) (children edges (last :: visited) path last)
        ≤ (children edges (last :: visited) path last).length • iterBound edges.length g := by
      unfold queueWeight
      rw [← List.length_map (children edges (last :: visited) path last)
        (pathWeight edges (last :: visited))]
      refine List.sum_le_card_nsmul _ _ ?_
      intro x hx
      obtain ⟨q, hq, rfl⟩ := List.mem_map.1 hx
      refine iterBound_mono _ ?_
      have := hchild q hq
      omega
    have hlen := children_length_le edges (last :: visited) path last
    simp only [smul_eq_mul] at hsum
    simp only [iterBound]
    have := Nat.mul_le_mul_right (iterBound edges.length g) hlen
    omega

/-- The loop finishes within `queueWeight` iterations. -/
theorem bfsLoop_terminates (edges : List (Conn α)) (to_ : α) :
    ∀ (fuel : Nat) (queue : List (List α)) (visited : List α),
      queueWeight edges visited queue < fuel →
      ∃ r, bfsLoop edges to_ fuel queue visited = some r := by
  intro fuel
  induction fuel with
  | zero => intro queue visited h; omega
  | succ fuel ih =>
    intro queue visited h
    cases queue with
    | nil => exact ⟨none, rfl⟩
    | cons path queue =>
      have hw : queueWeight edges visited (path :: queue) =
          pathWeight edges visited path + queueWeight edges visited queue := by
        simp [queueWeight]
      cases hl : path.getLast? with
      | none =>
        have h1 := iterBound_pos edges.length (unseen edges visited path)
        have : queueWeight edges visited queue < fuel := by
          unfold pathWeight at hw; omega
        obtain ⟨r, hr⟩ := ih queue visited this
        exact ⟨r, by simp only [bfsLoop, hl]; exact hr⟩
      | some last =>
        by_cases hto : last = to_
        · exact ⟨some path, by simp only [bfsLoop, hl, hto, if_true]⟩
        · have h1 := @queueWeight_children α _ edges visited path last hl
          have h2 := @queueWeight_anti α _ edges visited (last :: visited)
            queue (fun v hv => List.mem_cons_of_mem _ hv)
          have h3 := queueWeight_append edges (last :: visited) queue
            (children edges (last :: visited) path last)
          have : queueWeight edges (last :: visited)
              (queue ++ children edges (last :: visited) path last) < fuel := by omega
          obtain ⟨r, hr⟩ := ih _ _ this
          exact ⟨r, by simp only [bfsLoop, hl, hto, if_false]; exact hr⟩

/-- More fuel does not change a result already obtained. -/
theorem bfsLoop_fuel_mono (edges : List (Conn α)) (to_ : α) :
    ∀ (fuel : Nat) (queue : List (List α)) (visited : List α) (r : Option (List α)),
      bfsLoop edges to_ fuel queue visited = some r →
      ∀ k, bfsLoop edges to_ (fuel + k) queue visited = some r := by
  intro fuel
  induction fuel with
  | zero => intro queue visited r h; simp [bfsLoop] at h
  | succ fuel ih =>
    intro queue visited r h k
    rw [show fuel + 1 + k = (fuel + k) + 1 by omega]
    cases queue with
    | nil => simpa [bfsLoop] using h
    | cons path queue =>
      cases hl : path.getLast? with
      | none =>
        simp only [bfsLoop, hl] at h ⊢
        exact ih _ _ _ h k
      | some last =>
        by_cases hto : last = to_
        · simp only [bfsLoop, hl, hto, if_true] at h ⊢
          exact h
        · simp only [bfsLoop, hl, hto, if_false] at h ⊢
          exact ih _ _ _ h k

theorem queueWeight_init_lt (edges : List (Conn α)) (from_ : α) :
    queueWeight edges [] [[from_]] < searchFuel edges := by
  have : unseen edges [] [from_] ≤ (endpoints edges).length := by
    unfold unseen
    exact List.length_filter_le _ _
  have := iterBound_mono edges.length this
  simp only [queueWeight, pathWeight, searchFuel, List.map_cons, List.map_nil, List.sum_cons,
    List.sum_nil]
  omega

/-- The fuel `searchFuel` is never used up: with it, and with any larger
amount, the loop started by `bfs` ends and returns the value of `bfs`. -/
theorem bfsLoop_fuel_enough (edges : List (Conn α)) (from_ to_ : α) (k : Nat) :
    bfsLoop edges to_ (searchFuel edges + k) [[from_]] [] = some (bfs edges from_ to_) := by
  obtain ⟨r, hr⟩ := bfsLoop_terminates edges to_ (searchFuel edges) [[from_]] []
    (queueWeight_init_lt edges from_)
  have hb : bfs edges from_ to_ = r := by simp [bfs, hr]
  rw [hb]
  exact bfsLoop_fuel_mono edges to_ _ _ _ r hr k

/-! ### Partial correctness of the search loop -/

theorem walkFrom_ne_nil {edges : List (Conn α)} {from_ : α} {p : List α}
    (h : WalkFrom edges from_ p) : p ≠ [] := by
  intro e
  rw [e] at h
  simp [WalkFrom] at h

theorem walkFrom_concat {edges : List (Conn α)} {from_ : α} {p : List α} {last n : α}
    (h : WalkFrom edges from_ p) (hl : p.getLast? = some last) (hadj : Adj edges last n) :
    WalkFrom edges from_ (p ++ [n]) := by
  refine ⟨?_, ?_⟩
  · cases p with
    | nil => exact absurd rfl (walkFrom_ne_nil h)
    | cons a t => simpa using h.1
  · refine List.Chain'.append h.2 (List.chain'_singleton n) ?_
    intro x hx y hy
    rw [hl] at hx
    simp only [Option.mem_def, Option.some.injEq, List.head?_cons] at hx hy
    rw [← hx, ← hy]
    exact hadj

theorem walkFrom_reachIn (edges : List (Conn α)) (from_ : α) :
    ∀ (p : List α) (v : α), WalkFrom edges from_ p → p.getLast? = some v →
      ReachIn edges from_ (p.length - 1) v := by
  intro p
  induction p using List.reverseRecOn with
  | nil => intro v h; exact absurd rfl (walkFrom_ne_nil h)
  | append_singleton q a ih =>
    intro v h hl
    have hav : a = v := by simpa using hl
    subst hav
    cases q with
    | nil =>
      have : a = from_ := by simpa [WalkFrom] using h.1
      subst this
      exact ReachIn.refl
    | cons b t =>
      obtain ⟨x, hx⟩ : ∃ x, (b :: t).getLast? = some x :=
        ⟨(b :: t).getLast (by simp), List.getLast?_eq_getLast _ _⟩
      have hc := List.chain'_append.1 h.2
      have hq : WalkFrom edges from_ (b :: t) := ⟨by simpa using h.1, hc.1⟩
      have hadj : Adj edges x a := hc.2.2 x (by simp [hx]) a (by simp)
      have := ReachIn.step (ih x hq hx) hadj
      simpa using this

theorem BfsInv.init (edges : List (Conn α)) (from_ to_ : α) :
    BfsInv edges from_ to_ 0 [[from_]] [] [] where
  len₁ := by simp
  len₂ := by simp
  walk := by simp [WalkFrom]
  below := by intro h hh; omega
  level := by
    intro v hv
    cases hv
    simp
  closed := by simp
  target := by simp

theorem BfsInv.advance {edges : List (Conn α)} {from_ to_ : α} {lvl : Nat}
    {p : List α} {q₁ q₂ : List (List α)} {visited : List α} {last : α}
    (inv : BfsInv edges from_ to_ lvl (p :: q₁) q₂ visited)
    (hl : p.getLast? = some last) (hto : last ≠ to_) :
    BfsInv edges from_ to_ lvl q₁ (q₂ ++ children edges (last :: visited) p last)
      (last :: visited) where
  len₁ := fun q hq => inv.len₁ q (List.mem_cons_of_mem _ hq)
  len₂ := by
    intro q hq
    rcases List.mem_append.1 hq with hq | hq
    · exact inv.len₂ q hq
    · obtain ⟨n, _, _, rfl⟩ := mem_children.1 hq
      have := inv.len₁ p (List.mem_cons_self _ _)
      simp [this]
  walk := by
    intro q hq
    rcases List.mem_append.1 hq with hq | hq
    · exact inv.walk q (List.mem_append_left _ (List.mem_cons_of_mem _ hq))
    · rcases List.mem_append.1 hq with hq | hq
      · exact inv.walk q (List.mem_append_right _ hq)
      · obtain ⟨n, hadj, _, rfl⟩ := mem_children.1 hq
        exact walkFrom_concat (inv.walk p (by simp)) hl hadj
  below := fun h hh v hv => List.mem_cons_of_mem _ (inv.below h hh v hv)
  level := by
    intro v hv
    rcases inv.level v hv with h | ⟨q, hq, hqv⟩
    · exact Or.inl (List.mem_cons_of_mem _ h)
    · rcases List.mem_cons.1 hq with rfl | hq
      · rw [hl] at hqv
        exact Or.inl (by simp [← Option.some.inj hqv])
      · exact Or.inr ⟨q, hq, hqv⟩
  closed := by
    intro x hx v hadj
    rcases List.mem_cons.1 hx with rfl | hx
    · by_cases hv : v ∈ x :: visited
      · exact Or.inl hv
      · refine Or.inr ⟨p ++ [v], ?_, by simp⟩
        refine List.mem_append_right _ (List.mem_append_right _ ?_)
        exact mem_children.2 ⟨v, hadj, hv, rfl⟩
    · rcases inv.closed x hx v hadj with h | ⟨q, hq, hqv⟩
      · exact Or.inl (List.mem_cons_of_mem _ h)
      · rcases List.mem_append.1 hq with hq | hq
        · rcases List.mem_cons.1 hq with rfl | hq
          · rw [hl] at hqv
            exact Or.inl (by simp [← Option.some.inj hqv])
          · exact Or.inr ⟨q, List.mem_append_left _ hq, hqv⟩
        · exact Or.inr ⟨q, List.mem_append_right _ (List.mem_append_left _ hq), hqv⟩
  target := by
    intro h
    rcases List.mem_cons.1 h with h | h
    · exact hto h.symm
    · exact inv.target h

theorem BfsInv.shift {edges : List (Conn α)} {from_ to_ : α} {lvl : Nat}
    {q₂ : List (List α)} {visited : List α}
    (inv : BfsInv edges from_ to_ lvl [] q₂ visited) :
    BfsInv edges from_ to_ (lvl + 1) q₂ [] visited where
  len₁ := inv.len₂
  len₂ := by simp
  walk := by simpa using inv.walk
  below := by
    intro h hh v hv
    rcases Nat.lt_succ_iff_lt_or_eq.1 hh with hlt | rfl
    · exact inv.below h hlt v hv
    · rcases inv.level v hv with h | ⟨q, hq, _⟩
      · exact h
      · cases hq
  level := by
    intro v hv
    cases hv with
    | step hx hadj =>
      rename_i x
      have hxv : x ∈ visited := by
        rcases inv.level x hx with h | ⟨q, hq, _⟩
        · exact h
        · cases hq
      simpa using inv.closed x hxv v hadj
  closed := by simpa using inv.closed
  target := inv.target

theorem BfsInv.exhausted {edges : List (Conn α)} {from_ to_ : α} {lvl : Nat}
    {visited : List α} (inv : BfsInv edges from_ to_ lvl [] [] visited) :
    ∀ h v, ReachIn edges from_ h v → v ∈ visited := by
  intro h
  induction h with
  | zero =>
    intro v hv
    rcases Nat.eq_zero_or_pos lvl with h0 | hpos
    · subst h0
      rcases inv.level v hv with h | ⟨q, hq, _⟩
      · exact h
      · cases hq
    · exact inv.below 0 hpos v hv
  | succ h ih =>
    intro v hv
    cases hv with
    | step hx hadj =>
      rename_i x
      rcases inv.closed x (ih x hx) v hadj with h | ⟨q, hq, _⟩
      · exact h
      · cases hq

/-- What the loop returns from a state satisfying the invariant: a shortest
walk to `to_`, or `null` when `to_` is not reachable. -/
theorem bfsLoop_spec (edges : List (Conn α)) (from_ to_ : α) :
    ∀ (fuel lvl : Nat) (q₁ q₂ : List (List α)) (visited : List α) (r : Option (List α)),
      BfsInv edges from_ to_ lvl q₁ q₂ visited →
      bfsLoop edges to_ fuel (q₁ ++ q₂) visited = some r →
      (∃ p, r = some p ∧ IsWalk edges from_ to_ p ∧
          ∀ h, ReachIn edges from_ h to_ → p.length ≤ h + 1) ∨
        (r = none ∧ ∀ h, ¬ ReachIn edges from_ h to_) := by
  intro fuel
  induction fuel with
  | zero => intro lvl q₁ q₂ visited r _ h; simp [bfsLoop] at h
  | succ fuel ih =>
    have main : ∀ (lvl : Nat) (p : List α) (q₁ q₂ : List (List α)) (visited : List α)
        (r : Option (List α)), BfsInv edges from_ to_ lvl (p :: q₁) q₂ visited →
        bfsLoop edges to_ (fuel + 1) (p :: q₁ ++ q₂) visited = some r →
        (∃ p, r = some p ∧ IsWalk edges from_ to_ p ∧
            ∀ h, ReachIn edges from_ h to_ → p.length ≤ h + 1) ∨
          (r = none ∧ ∀ h, ¬ ReachIn edges from_ h to_) := by
      intro lvl p q₁ q₂ visited r inv hr
      have hw : WalkFrom edges from_ p := inv.walk p (by simp)
      obtain ⟨last, hl⟩ : ∃ x, p.getLast? = some x :=
        ⟨p.getLast (walkFrom_ne_nil hw), List.getLast?_eq_getLast _ _⟩
      by_cases hto : last = to_
      · simp only [List.cons_append, bfsLoop, hl, hto, if_true, Option.some.injEq] at hr
        subst hto
        refine Or.inl ⟨p, hr.symm, ⟨hw.1, hl, hw.2⟩, ?_⟩
        intro h hh
        have hlen := inv.len₁ p (List.mem_cons_self _ _)
        by_contra hcon
        exact inv.target (inv.below h (by omega) _ hh)
      · simp only [List.cons_append, bfsLoop, hl, hto, if_false] at hr
        have inv' := inv.advance hl hto
        refine ih lvl q₁ _ (last :: visited) r inv' ?_
        rw [← List.append_assoc]
        exact hr
    intro lvl q₁ q₂ visited r inv hr
    cases q₁ with
    | cons p q₁ => exact main lvl p q₁ q₂ visited r inv hr
    | nil =>
      cases q₂ with
      | nil =>
        simp only [List.append_nil, bfsLoop, Option.some.injEq] at hr
        refine Or.inr ⟨hr.symm, ?_⟩
        intro h hh
        exact inv.target (inv.exhausted h to_ hh)
      | cons p q₂ =>
        refine main (lvl + 1) p q₂ [] visited r inv.shift ?_
        simpa using hr

/-- Total correctness of the shared search: it returns a shortest walk to
`to_`, or `null` when no walk reaches `to_`. -/
theorem bfs_spec (edges : List (Conn α)) (from_ to_ : α) :
    (∃ p, bfs edges from_ to_ = some p ∧ IsWalk edges from_ to_ p ∧
        ∀ w, IsWalk edges from_ to_ w → p.length ≤ w.length) ∨
      (bfs edges from_ to_ = none ∧ ¬ Reachable edges from_ to_) := by
  have hrun := bfsLoop_fuel_enough edges from_ to_ 0
  have hlen : ∀ w, IsWalk edges from_ to_ w →
      ReachIn edges from_ (w.length - 1) to_ ∧ 1 ≤ w.length := by
    intro w hw
    have hwf : WalkFrom edges from_ w := ⟨hw.1, hw.2.2⟩
    refine ⟨walkFrom_reachIn edges from_ w to_ hwf hw.2.1, ?_⟩
    exact List.length_pos.2 (walkFrom_ne_nil hwf)
  rcases bfsLoop_spec edges from_ to_ _ 0 [[from_]] [] [] _ (BfsInv.init edges from_ to_) hrun
    with ⟨p, hp, hwalk, hmin⟩ | ⟨hnone, hno⟩
  · refine Or.inl ⟨p, hp, hwalk, ?_⟩
    intro w hw
    have := hmin _ (hlen w hw).1
    have := (hlen w hw).2
    omega
  · refine Or.inr ⟨hnone, ?_⟩
    rintro ⟨w, hw⟩
    exact hno _ (hlen w hw).1

theorem bfs_some_of_reachable {edges : List (Conn α)} {from_ to_ : α}
    (h : Reachable edges from_ to_) :
    ∃ p, bfs edges from_ to_ = some p ∧ IsWalk edges from_ to_ p ∧
      ∀ w, IsWalk edges from_ to_ w → p.length ≤ w.length := by
  rcases bfs_spec edges from_ to_ with h' | ⟨_, h'⟩
  · exact h'
  · exact absurd h h'

theorem bfs_walk {edges : List (Conn α)} {from_ to_ : α} {p : List α}
    (h : bfs edges from_ to_ = some p) : IsWalk edges from_ to_ p := by
  rcases bfs_spec edges from_ to_ with ⟨q, hq, hw, _⟩ | ⟨hn, _⟩
  · rw [h] at hq
    rw [Option.some.inj hq]
    exact hw
  · rw [h] at hn
    cases hn

theorem bfs_none_of_not_reachable {edges : List (Conn α)} {from_ to_ : α}
    (h : ¬ Reachable edges from_ to_) : bfs edges from_ to_ = none := by
  rcases bfs_spec edges from_ to_ with ⟨q, _, hw, _⟩ | ⟨hn, _⟩
  · exact absurd ⟨q, hw⟩ h
  · exact hn

/-- A node that is an endpoint of no edge is reached from no other node. -/
theorem not_reachable_of_not_mem_endpoints {edges : List (Conn α)} {from_ to_ : α}
    (hne : from_ ≠ to_) (hmem : to_ ∉ endpoints edges) : ¬ Reachable edges from_ to_ := by
  rintro ⟨w, hw⟩
  have hr := walkFrom_reachIn edges from_ w to_ ⟨hw.1, hw.2.2⟩ hw.2.1
  generalize w.length - 1 = h at hr
  cases hr with
  | refl => exact hne rfl
  | step _ hadj => exact hmem (mem_endpoints_of_adj hadj)

end PathFinderProofs

/-! ## The path finder: claims -/

/-- C1. When `to_` is reachable from `from_` in the undirected graph of the
connections, `findPath` returns a walk from `from_` to `to_` that no walk
between them is shorter than, so its hop count is the shortest-path
distance; `findPathByName` does the same over the built-in `links`. -/
theorem findPath_shortest {α : Type} [DecidableEq α] (connections : List (Conn α))
    (from_ to_ : α) (a b : String)
    (h₁ : Reachable connections from_ to_) (h₂ : Reachable linkConns a b) :
    (∃ p, findPath connections from_ to_ = some p ∧ IsWalk connections from_ to_ p ∧
        ∀ w, IsWalk connections from_ to_ w → p.length - 1 ≤ w.length - 1) ∧
      (∃ p, findPathByName a b = some p ∧ IsWalk linkConns a b p ∧
        ∀ w, IsWalk linkConns a b w → p.length - 1 ≤ w.length - 1) := by
  obtain ⟨p, hp, hw, hmin⟩ := bfs_some_of_reachable h₁
  obtain ⟨q, hq, hwq, hminq⟩ := bfs_some_of_reachable h₂
  exact ⟨⟨p, hp, hw, fun w hw' => Nat.sub_le_sub_right (hmin w hw') 1⟩,
    ⟨q, hq, hwq, fun w hw' => Nat.sub_le_sub_right (hminq w hw') 1⟩⟩

/-- Witness for C1: the chain 0 - 1 - 2 with a detour edge, and `A` to `E`
over the built-in links. -/
theorem findPath_shortest_witness :
    (Reachable [(⟨0, 1⟩ : Conn Nat), ⟨1, 2⟩, ⟨1, 3⟩, ⟨3, 2⟩] 0 2 ∧
      Reachable linkConns "A" "E") ∧
    (∃ p, findPath [(⟨0, 1⟩ : Conn Nat), ⟨1, 2⟩, ⟨1, 3⟩, ⟨3, 2⟩] 0 2 = some p ∧
        IsWalk [(⟨0, 1⟩ : Conn Nat), ⟨1, 2⟩, ⟨1, 3⟩, ⟨3, 2⟩] 0 2 p ∧
        ∀ w, IsWalk [(⟨0, 1⟩ : Conn Nat), ⟨1, 2⟩, ⟨1, 3⟩, ⟨3, 2⟩] 0 2 w →
          p.length - 1 ≤ w.length - 1) ∧
      (∃ p, findPathByName "A" "E" = some p ∧ IsWalk linkConns "A" "E" p ∧
        ∀ w, IsWalk linkConns "A" "E" w → p.length - 1 ≤ w.length - 1) :=
  ⟨⟨⟨[0, 1, 3, 2], by simp [IsWalk, Adj]⟩,
      ⟨["A", "B", "D", "E"], by simp [IsWalk, Adj, linkConns, links]⟩⟩,
    findPath_shortest _ 0 2 "A" "E" ⟨[0, 1, 3, 2], by simp [IsWalk, Adj]⟩
      ⟨["A", "B", "D", "E"], by simp [IsWalk, Adj, linkConns, links]⟩⟩

/-- C2. A path returned by `findPath` is a walk of the connection graph: it
starts with `from_`, ends with `to_`, and every two consecutive nodes are the
two endpoints of some connection, in either orientation. -/
theorem findPath_is_walk {α : Type} [DecidableEq α] (connections : List (Conn α))
    (from_ to_ : α) (path : List α) (h : findPath connections from_ to_ = some path) :
    path.head? = some from_ ∧ path.getLast? = some to_ ∧
      path.Chain' (fun x y => ∃ c ∈ connections,
        (c.from_ = x ∧ c.to_ = y) ∨ (c.to_ = x ∧ c.from_ = y)) :=
  bfs_walk h

/-- Witness for C2 on the chain 0 - 1 - 2. -/
theorem findPath_is_walk_witness :
    findPath [(⟨0, 1⟩ : Conn Nat), ⟨2, 1⟩] 0 2 = some [0, 1, 2] ∧
      ([0, 1, 2].head? = some 0 ∧ [0, 1, 2].getLast? = some 2 ∧
        [0, 1, 2].Chain' (fun x y => ∃ c ∈ [(⟨0, 1⟩ : Conn Nat), ⟨2, 1⟩],
          (c.from_ = x ∧ c.to_ = y) ∨ (c.to_ = x ∧ c.from_ = y))) :=
  ⟨by decide, findPath_is_walk _ 0 2 [0, 1, 2] (by decide)⟩

/-- C3. When no undirected walk along the connections joins `from_` and
`to_` (which then differ, the one-node walk joining a node to itself),
`findPath` returns `null`. -/
theorem findPath_unreachable {α : Type} [DecidableEq α] (connections : List (Conn α))
    (from_ to_ : α) (h : ¬ Reachable connections from_ to_) :
    findPath connections from_ to_ = none :=
  bfs_none_of_not_reachable h

/-- Witness for C3: node 3 is an endpoint of no connection. -/
theorem findPath_unreachable_witness :
    (0 ≠ 3 ∧ ¬ Reachable [(⟨0, 1⟩ : Conn Nat), ⟨1, 2⟩, ⟨2, 0⟩] 0 3) ∧
      findPath [(⟨0, 1⟩ : Conn Nat), ⟨1, 2⟩, ⟨2, 0⟩] 0 3 = none :=
  ⟨⟨by decide, not_reachable_of_not_mem_endpoints (by decide) (by decide)⟩,
    findPath_unreachable _ 0 3 (not_reachable_of_not_mem_endpoints (by decide) (by decide))⟩


/-! ## The packet registry: claims -/

/-- C4 (evaluation of the code at the failing input).  The packet created by
`send-packet` for `A` to `C` over the edges `A - B`, `B - C` has the path
`[A, B, C]`; the three following ticks return it with progress 1, then 2,
then 2 again: the third tick does not remove it, and neither does any tick
remove a packet with a one-node path. -/
theorem advance_keeps_delivered_packet :
    (sendPacket (setNetwork State.init (some [Val.str "A", Val.str "B", Val.str "C"])
        (some [⟨Val.str "A", Val.str "B"⟩, ⟨Val.str "B", Val.str "C"⟩]))
        (Val.str "A") (Val.str "C") (Val.str "x") 7).1.packets =
      [⟨7, Val.str "A", Val.str "C", [Val.str "A", Val.str "B", Val.str "C"], Val.str "x", 0⟩] ∧
    advanceN 1
        [⟨7, Val.str "A", Val.str "C", [Val.str "A", Val.str "B", Val.str "C"], Val.str "x", 0⟩] =
      [⟨7, Val.str "A", Val.str "C", [Val.str "A", Val.str "B", Val.str "C"], Val.str "x", 1⟩] ∧
    advanceN 2
        [⟨7, Val.str "A", Val.str "C", [Val.str "A", Val.str "B", Val.str "C"], Val.str "x", 0⟩] =
      [⟨7, Val.str "A", Val.str "C", [Val.str "A", Val.str "B", Val.str "C"], Val.str "x", 2⟩] ∧
    advanceN 3
        [⟨7, Val.str "A", Val.str "C", [Val.str "A", Val.str "B", Val.str "C"], Val.str "x", 0⟩] =
      [⟨7, Val.str "A", Val.str "C", [Val.str "A", Val.str "B", Val.str "C"], Val.str "x", 2⟩] ∧
    advanceN 1 [⟨8, Val.str "A", Val.str "A", [Val.str "A"], Val.str "x", 0⟩] =
      [⟨8, Val.str "A", Val.str "A", [Val.str "A"], Val.str "x", 0⟩] := by
  decide

theorem advancePackets_append (xs ys : List Packet) :
    advancePackets (xs ++ ys) = advancePackets xs ++ advancePackets ys := by
  simp [advancePackets]

theorem advanceN_append (n : Nat) (xs ys : List Packet) :
    advanceN n (xs ++ ys) = advanceN n xs ++ advanceN n ys := by
  induction n generalizing xs ys with
  | zero => rfl
  | succ n ih => simp only [advanceN, advancePackets_append, ih]

theorem advancePackets_singleton (pkt : Packet)
    (h : pkt.progress ≤ (pkt.path.length : Int) - 1) :
    advancePackets [pkt] =
      [{ pkt with progress := min (pkt.progress + 1) ((pkt.path.length : Int) - 1) }] := by
  by_cases hlt : pkt.progress < (pkt.path.length : Int) - 1
  · have hmin : min (pkt.progress + 1) ((pkt.path.length : Int) - 1) = pkt.progress + 1 :=
      min_eq_left (by omega)
    have hkeep : pkt.progress + 1 < (pkt.path.length : Int) := by omega
    simp [advancePackets, hlt, hmin, hkeep]
  · have heq : pkt.progress = (pkt.path.length : Int) - 1 := by omega
    have hmin : min (pkt.progress + 1) ((pkt.path.length : Int) - 1) = pkt.progress := by
      rw [← heq]; exact min_eq_right (by omega)
    have hkeep : pkt.progress < (pkt.path.length : Int) := by omega
    simp [advancePackets, hlt, hmin, hkeep]

theorem advanceN_singleton (n : Nat) (pkt : Packet)
    (h : pkt.progress ≤ (pkt.path.length : Int) - 1) :
    advanceN n [pkt] =
      [{ pkt with progress := min (pkt.progress + n) ((pkt.path.length : Int) - 1) }] := by
  induction n generalizing pkt with
  | zero =>
    have : min (pkt.progress + ((0 : Nat) : Int)) ((pkt.path.length : Int) - 1) = pkt.progress := by
      simp [h]
    rw [this]
    rfl
  | succ n ih =>
    rw [advanceN, advancePackets_singleton pkt h, ih]
    · congr 2
      simp only [Nat.cast_add, Nat.cast_one]
      omega
    · exact min_le_right _ _

/-- C5. A packet of the registry whose progress is at most its last path
index `k - 1` is, after `n` consecutive ticks, still in the registry at its
place with progress `min (p + n) (k - 1)` and otherwise unchanged; so one
tick adds one below the last index and nothing at it, and a fresh packet
has progress `k - 1` after `n` ticks exactly when `k - 1 ≤ n`. -/
theorem advanceN_progress (n : Nat) (before after : List Packet) (pkt : Packet)
    (h : pkt.progress ≤ (pkt.path.length : Int) - 1) :
    advanceN n (before ++ pkt :: after) =
        advanceN n before ++
          { pkt with progress := min (pkt.progress + n) ((pkt.path.length : Int) - 1) } ::
            advanceN n after ∧
      (pkt.progress = 0 →
        (min (pkt.progress + n) ((pkt.path.length : Int) - 1) = (pkt.path.length : Int) - 1 ↔
          (pkt.path.length : Int) - 1 ≤ n)) := by
  constructor
  · rw [advanceN_append, show pkt :: after = [pkt] ++ after from rfl, advanceN_append,
      advanceN_singleton n pkt h]
    rfl
  · intro h0
    rw [h0]
    constructor
    · intro hm
      have := min_le_left ((0 : Int) + n) ((pkt.path.length : Int) - 1)
      omega
    · intro hle
      exact min_eq_right (by omega)

/-- Witness for C5: a fresh packet with a three-node path between two other
packets, after two ticks. -/
theorem advanceN_progress_witness :
    (0 : Int) ≤ (([Val.num 0, Val.num 1, Val.num 2] : List Val).length : Int) - 1 ∧
    advanceN 2 ([⟨1, Val.num 5, Val.num 5, [Val.num 5], Val.null, 0⟩] ++
        ⟨2, Val.num 0, Val.num 2, [Val.num 0, Val.num 1, Val.num 2], Val.null, 0⟩ ::
          [⟨3, Val.num 0, Val.num 1, [Val.num 0, Val.num 1], Val.null, 1⟩]) =
      advanceN 2 [⟨1, Val.num 5, Val.num 5, [Val.num 5], Val.null, 0⟩] ++
        ⟨2, Val.num 0, Val.num 2, [Val.num 0, Val.num 1, Val.num 2], Val.null,
          min ((0 : Int) + (2 : Nat)) ((([Val.num 0, Val.num 1, Val.num 2] : List Val).length : Int) - 1)⟩ ::
          advanceN 2 [⟨3, Val.num 0, Val.num 1, [Val.num 0, Val.num 1], Val.null, 1⟩] :=
  ⟨by decide,
    (advanceN_progress 2 [⟨1, Val.num 5, Val.num 5, [Val.num 5], Val.null, 0⟩]
      [⟨3, Val.num 0, Val.num 1, [Val.num 0, Val.num 1], Val.null, 1⟩]
      ⟨2, Val.num 0, Val.num 2, [Val.num 0, Val.num 1, Val.num 2], Val.null, 0⟩
      (by decide)).1⟩

/-- C6. `send-packet` answers with the "no path" error exactly when
`findPath` over the current connections returns `null`, and then the state is
unchanged; otherwise it appends one packet with the given `from`, `to` and
payload, the path found and progress 0 behind the earlier packets, which it
leaves as they are, and answers with that packet. -/
theorem sendPacket_spec (s : State) (from_ to_ payload : Val) (id : Nat) :
    ((∃ status message,
          (sendPacket s from_ to_ payload id).2 = SendResponse.error status message) ↔
        findPath s.connections from_ to_ = none) ∧
      (findPath s.connections from_ to_ = none →
        sendPacket s from_ to_ payload id = (s, SendResponse.error 400 "No path found")) ∧
      (∀ path, findPath s.connections from_ to_ = some path →
        sendPacket s from_ to_ payload id =
          ({ s with packets := s.packets ++ [⟨id, from_, to_, path, payload, 0⟩] },
            SendResponse.success ⟨id, from_, to_, path, payload, 0⟩)) := by
  refine ⟨?_, ?_, ?_⟩
  · cases h : findPath s.connections from_ to_ with
    | none => simp [sendPacket, h]
    | some path => simp [sendPacket, h]
  · intro h
    simp [sendPacket, h]
  · intro path h
    simp [sendPacket, h]

/-! ## Topology and routing failures: claims -/

/-- C7 (counterexample).  With `nodes = [A, B]` and the single connection
`A - Z` installed, `send-packet` from `A` to `Z` succeeds with the path
`[A, Z]` although `Z` is not a member of `nodes`. -/
theorem sendPacket_reaches_unknown_node :
    Val.str "A" ≠ Val.str "Z" ∧
    Val.str "Z" ∉ (setNetwork State.init (some [Val.str "A", Val.str "B"])
        (some [⟨Val.str "A", Val.str "Z"⟩])).nodes ∧
    (sendPacket (setNetwork State.init (some [Val.str "A", Val.str "B"])
        (some [⟨Val.str "A", Val.str "Z"⟩])) (Val.str "A") (Val.str "Z") (Val.str "x") 1).2 =
      SendResponse.success
        ⟨1, Val.str "A", Val.str "Z", [Val.str "A", Val.str "Z"], Val.str "x", 0⟩ := by
  decide

theorem chain_mem_adj {α : Type} {R : α → α → Prop} :
    ∀ (a : α) (l : List α), List.Chain R a l → ∀ v ∈ l, ∃ x, R x v := by
  intro a l h
  induction h with
  | nil => intro v hv; cases hv
  | cons hab _ ih =>
    intro v hv
    rcases List.mem_cons.1 hv with rfl | hv
    · exact ⟨_, hab⟩
    · exact ih v hv

theorem walk_mem_endpoints {α : Type} [DecidableEq α] {edges : List (Conn α)}
    {from_ to_ : α} {w : List α} (hw : IsWalk edges from_ to_ w) :
    ∀ v ∈ w, v = from_ ∨ v ∈ endpoints edges := by
  intro v hv
  cases w with
  | nil => cases hv
  | cons a t =>
    have ha : a = from_ := by simpa using hw.1
    rcases List.mem_cons.1 hv with rfl | hv
    · exact Or.inl ha
    · obtain ⟨x, hx⟩ := chain_mem_adj a t hw.2.2 v hv
      exact Or.inr (mem_endpoints_of_adj hx)

/-- C7 (amended).  After `set-network`, a `send-packet` from `from_` to a
different node `to_` that is an endpoint of none of the installed connections
fails with the "no path" error and leaves the state unchanged; and every node
of a path that `findPath` returns is `from_` or an endpoint of one of the
connections.  The node list plays no part. -/
theorem sendPacket_fails_off_connections (s : State) (nodes : Option (List Val))
    (connections : Option (List (Conn Val))) (from_ to_ payload : Val) (id : Nat)
    (hne : from_ ≠ to_) (hto : to_ ∉ endpoints (connections.getD [])) :
    sendPacket (setNetwork s nodes connections) from_ to_ payload id =
        (setNetwork s nodes connections, SendResponse.error 400 "No path found") ∧
      ∀ a b path, findPath (connections.getD []) a b = some path →
        ∀ v ∈ path, v = a ∨ v ∈ endpoints (connections.getD []) := by
  constructor
  · have hnone : findPath (setNetwork s nodes connections).connections from_ to_ = none :=
      bfs_none_of_not_reachable (not_reachable_of_not_mem_endpoints hne hto)
    simp [sendPacket, hnone]
  · intro a b path hp
    exact walk_mem_endpoints (bfs_walk hp)

/-- Witness for C7 (amended): `Z` is in the node list but on no connection. -/
theorem sendPacket_fails_off_connections_witness :
    (Val.str "A" ≠ Val.str "Z" ∧
      Val.str "Z" ∉ endpoints ((some [(⟨Val.str "A", Val.str "B"⟩ : Conn Val)]).getD [])) ∧
    sendPacket (setNetwork State.init (some [Val.str "A", Val.str "B", Val.str "Z"])
        (some [⟨Val.str "A", Val.str "B"⟩])) (Val.str "A") (Val.str "Z") Val.null 1 =
      (setNetwork State.init (some [Val.str "A", Val.str "B", Val.str "Z"])
        (some [⟨Val.str "A", Val.str "B"⟩]), SendResponse.error 400 "No path found") :=
  ⟨⟨by decide, by decide⟩,
    (sendPacket_fails_off_connections State.init (some [Val.str "A", Val.str "B", Val.str "Z"])
      (some [⟨Val.str "A", Val.str "B"⟩]) (Val.str "A") (Val.str "Z") Val.null 1
      (by decide) (by decide)).1⟩

/-! ## The registry invariant -/

theorem packetOk_of_walk {α : Type} [DecidableEq α] {edges : List (Conn α)} {a b : α}
    {path : List α} (hw : IsWalk edges a b path) (f : α → Val) (id : Nat) (payload : Val) :
    PacketOk ⟨id, f a, f b, path.map f, payload, 0⟩ := by
  have hne : path ≠ [] := walkFrom_ne_nil ⟨hw.1, hw.2.2⟩
  refine ⟨le_refl _, ?_, ?_, ?_⟩
  · have := List.length_pos.2 hne
    simp only [List.length_map]
    omega
  · simp [List.head?_map, hw.1]
  · simp [List.getLast?_map, hw.2.1]

theorem advancePackets_ok (packets : List Packet) (h : ∀ pkt ∈ packets, PacketOk pkt) :
    ∀ pkt ∈ advancePackets packets, PacketOk pkt := by
  intro pkt hp
  simp only [advancePackets, List.mem_filter, List.mem_map] at hp
  obtain ⟨⟨q, hq, rfl⟩, _⟩ := hp
  have hok := h q hq
  by_cases hlt : q.progress < (q.path.length : Int) - 1
  · simp only [hlt, if_true]
    refine ⟨?_, ?_, hok.2.2.1, hok.2.2.2⟩
    · have := hok.1
      show 0 ≤ q.progress + 1
      omega
    · show q.progress + 1 < (q.path.length : Int)
      omega
  · simp only [hlt, if_false]
    exact hok

theorem simulateUnit_ok (ids : Nat → Nat) (time nodeName : String)
    (st st' : State × List Draw) (h : ∀ pkt ∈ st.1.packets, PacketOk pkt)
    (hs : simulateUnit ids time nodeName st = some st') :
    ∀ pkt ∈ st'.1.packets, PacketOk pkt := by
  unfold simulateUnit at hs
  cases hp : pickDest st.1.nodes.length nodeName st.2 with
  | none => simp [hp] at hs
  | some r =>
    obtain ⟨dest, draws⟩ := r
    cases hf : findPathByName nodeName dest with
    | none =>
      simp only [hp, hf, Option.some.injEq] at hs
      rw [← hs]
      exact h
    | some path =>
      simp only [hp, hf, Option.some.injEq] at hs
      rw [← hs]
      intro pkt hpkt
      rcases List.mem_append.1 hpkt with hpkt | hpkt
      · exact h pkt hpkt
      · rw [List.mem_singleton.1 hpkt]
        exact packetOk_of_walk (bfs_walk hf) (fun n => Val.num (getNodeIndex n)) _ _

theorem simulateNode_ok (ids : Nat → Nat) (time nodeName : String) :
    ∀ (rate : Nat) (st st' : State × List Draw), (∀ pkt ∈ st.1.packets, PacketOk pkt) →
      simulateNode ids time nodeName rate st = some st' →
      ∀ pkt ∈ st'.1.packets, PacketOk pkt := by
  intro rate
  induction rate with
  | zero =>
    intro st st' h hs
    simp only [simulateNode, Option.some.injEq] at hs
    rw [← hs]
    exact h
  | succ rate ih =>
    intro st st' h hs
    simp only [simulateNode] at hs
    cases hu : simulateUnit ids time nodeName st with
    | none => simp [hu] at hs
    | some mid =>
      rw [hu] at hs
      exact ih mid st' (simulateUnit_ok ids time nodeName st mid h hu) hs

theorem simulateEntries_ok (ids : Nat → Nat) (time : String) :
    ∀ (entries : List (String × Nat)) (st st' : State × List Draw),
      (∀ pkt ∈ st.1.packets, PacketOk pkt) →
      simulateEntries ids time entries st = some st' →
      ∀ pkt ∈ st'.1.packets, PacketOk pkt := by
  intro entries
  induction entries with
  | nil =>
    intro st st' h hs
    simp only [simulateEntries, Option.some.injEq] at hs
    rw [← hs]
    exact h
  | cons e entries ih =>
    intro st st' h hs
    obtain ⟨nodeName, rate⟩ := e
    simp only [simulateEntries] at hs
    cases hu : simulateNode ids time nodeName rate st with
    | none => simp [hu] at hs
    | some mid =>
      rw [hu] at hs
      exact ih mid st' (simulateNode_ok ids time nodeName rate st mid h hu) hs

theorem simulateInterval_ok (ids : Nat → Nat) (s s' : State) (draws rest : List Draw)
    (time : Option String) (h : ∀ pkt ∈ s.packets, PacketOk pkt)
    (hs : simulateInterval ids s draws = SimResult.done s' time rest) :
    ∀ pkt ∈ s'.packets, PacketOk pkt := by
  unfold simulateInterval at hs
  cases ht : trafficTimes[s.timeIndex]? with
  | none => simp [ht] at hs
  | some t =>
    cases hr : trafficRates.lookup t with
    | none => simp [ht, hr] at hs
    | some rates =>
      cases he : simulateEntries ids t rates (s, draws) with
      | none => simp [ht, hr, he] at hs
      | some st =>
        simp only [ht, hr, he, SimResult.done.injEq] at hs
        have := simulateEntries_ok ids t rates (s, draws) st h he
        rw [← hs.1]
        exact this

theorem step_ok {s s' : State} (hstep : Step s s') (h : ∀ pkt ∈ s.packets, PacketOk pkt) :
    ∀ pkt ∈ s'.packets, PacketOk pkt := by
  cases hstep with
  | setNetwork nodes connections => exact h
  | sendPacket from_ to_ payload id =>
    unfold sendPacket
    cases hf : findPath s.connections from_ to_ with
    | none => exact h
    | some path =>
      intro pkt hpkt
      rcases List.mem_append.1 hpkt with hpkt | hpkt
      · exact h pkt hpkt
      · rw [List.mem_singleton.1 hpkt]
        have := packetOk_of_walk (bfs_walk hf) (fun v => v) id payload
        simpa using this
  | simulateInterval ids draws _ time rest hs =>
    exact simulateInterval_ok ids s s' draws rest time h hs
  | advance => exact advancePackets_ok s.packets h

theorem reachableState_ok {s : State} (h : ReachableState s) :
    ∀ pkt ∈ s.packets, PacketOk pkt := by
  induction h with
  | init => intro pkt hp; cases hp
  | step _ hstep ih => exact step_ok hstep ih

/-- C8. In every state reachable from the initial one by `set-network`,
`send-packet`, `simulate-interval` and `advance` requests, every packet of
the registry has `0 ≤ progress < length(path)`, `path[0] = from` and
`path[last] = to`; in particular its path is not empty. -/
theorem reachable_packets_ok (s : State) (h : ReachableState s) (pkt : Packet)
    (hp : pkt ∈ s.packets) :
    0 ≤ pkt.progress ∧ pkt.progress < (pkt.path.length : Int) ∧
      pkt.path.head? = some pkt.from_ ∧ pkt.path.getLast? = some pkt.to_ ∧ pkt.path ≠ [] := by
  obtain ⟨h1, h2, h3, h4⟩ := reachableState_ok h pkt hp
  refine ⟨h1, h2, h3, h4, ?_⟩
  intro he
  rw [he] at h3
  cases h3

/-- Witness for C8: the state after `set-network`, `send-packet` and one
tick, and its one packet. -/
theorem reachable_packets_ok_witness :
    (ReachableState (advance (sendPacket (setNetwork State.init none
        (some [⟨Val.num 0, Val.num 1⟩, ⟨Val.num 1, Val.num 2⟩]))
        (Val.num 0) (Val.num 2) Val.null 7).1).1 ∧
      (⟨7, Val.num 0, Val.num 2, [Val.num 0, Val.num 1, Val.num 2], Val.null, 1⟩ : Packet) ∈
        (advance (sendPacket (setNetwork State.init none
          (some [⟨Val.num 0, Val.num 1⟩, ⟨Val.num 1, Val.num 2⟩]))
          (Val.num 0) (Val.num 2) Val.null 7).1).1.packets) ∧
    ((0 : Int) ≤ 1 ∧ (1 : Int) < (([Val.num 0, Val.num 1, Val.num 2] : List Val).length : Int) ∧
      [Val.num 0, Val.num 1, Val.num 2].head? = some (Val.num 0) ∧
      [Val.num 0, Val.num 1, Val.num 2].getLast? = some (Val.num 2) ∧
      [Val.num 0, Val.num 1, Val.num 2] ≠ []) :=
  ⟨⟨ReachableState.step (ReachableState.step (ReachableState.step ReachableState.init
        (Step.setNetwork _ _ _)) (Step.sendPacket _ _ _ _ _)) (Step.advance _), by decide⟩,
    reachable_packets_ok _
      (ReachableState.step (ReachableState.step (ReachableState.step ReachableState.init
        (Step.setNetwork State.init none
          (some [⟨Val.num 0, Val.num 1⟩, ⟨Val.num 1, Val.num 2⟩])) )
        (Step.sendPacket _ (Val.num 0) (Val.num 2) Val.null 7)) (Step.advance _))
      ⟨7, Val.num 0, Val.num 2, [Val.num 0, Val.num 1, Val.num 2], Val.null, 1⟩ (by decide)⟩

/-! ## Destination draws of `simulate-interval`: claims -/

theorem draw_index_lt (d : Draw) {n : Nat} (hn : 0 < n) : d.index n < n := by
  unfold Draw.index
  have hden : 0 < d.den := Nat.lt_of_le_of_lt (Nat.zero_le _) d.lt
  rw [Nat.div_lt_iff_lt_mul hden]
  exact Nat.mul_lt_mul_of_lt_of_le d.lt (le_refl n) hn |>.trans_le (by rw [Nat.mul_comm])

theorem draw_index_zero (d : Draw) : d.index 0 = 0 := by
  simp [Draw.index]

theorem pickDest_some (n : Nat) (nodeName : String) :
    ∀ (draws : List Draw) (dest : String) (rest : List Draw),
      pickDest n nodeName draws = some (dest, rest) →
      (∃ d ∈ draws, dest = getNodeName (d.index n)) ∧ dest ≠ nodeName := by
  intro draws
  induction draws with
  | nil => intro dest rest h; simp [pickDest] at h
  | cons d draws ih =>
    intro dest rest h
    by_cases hd : getNodeName (d.index n) = nodeName
    · simp only [pickDest, hd, if_true] at h
      obtain ⟨⟨d', hd', he⟩, hne⟩ := ih dest rest h
      exact ⟨⟨d', List.mem_cons_of_mem _ hd', he⟩, hne⟩
    · simp only [pickDest, hd, if_false, Option.some.injEq, Prod.mk.injEq] at h
      refine ⟨⟨d, List.mem_cons_self _ _, h.1.symm⟩, ?_⟩
      rw [← h.1]
      exact hd

/-- Every pair of the five backbone names is joined by `findPathByName`. -/
theorem findPathByName_backbone :
    ∀ src ∈ ["A", "B", "C", "D", "E"], ∀ i, i < 5 →
      (findPathByName src (getNodeName i)).isSome = true := by
  decide

/-- C9 (counterexample).  With six configured nodes the draw `5/6` picks
index 5, the name `F`, for a unit of source `A`; `findPathByName` finds no
path to it over `links`, and the unit is dropped: the registry stays empty. -/
theorem simulateUnit_drops_sixth_node :
    2 ≤ ({ State.init with nodes := List.replicate 6 Val.null } : State).nodes.length ∧
    (pickDest 6 "A" [⟨5, 6, by decide⟩]).map Prod.fst = some "F" ∧
    findPathByName "A" "F" = none ∧
    (simulateUnit (fun n => n) "08:00" "A"
      ({ State.init with nodes := List.replicate 6 Val.null }, [⟨5, 6, by decide⟩])).map
        (fun r => r.1.packets) = some [] := by
  decide

/-- C9 (amended).  With at most five configured nodes (in particular two to
five), whatever the draws, a demand unit of a scheduled source whose
destination loop ends finds a path over `links` and is not dropped: exactly
one packet, carrying that path, is appended to the registry. -/
theorem simulateUnit_routes (ids : Nat → Nat) (time nodeName : String)
    (st st' : State × List Draw) (hn : st.1.nodes.length ≤ 5)
    (hsrc : ∃ entry ∈ trafficRates, nodeName ∈ entry.2.map Prod.fst)
    (h : simulateUnit ids time nodeName st = some st') :
    ∃ dest path, findPathByName nodeName dest = some path ∧
      st'.1.packets = st.1.packets ++
        [⟨ids st.1.packets.length, Val.num (getNodeIndex nodeName), Val.num (getNodeIndex dest),
          path.map (fun n => Val.num (getNodeIndex n)), Val.str ("Auto " ++ time), 0⟩] := by
  have hmem : nodeName ∈ ["A", "B", "C", "D", "E"] := by
    obtain ⟨entry, he, hin⟩ := hsrc
    simp only [trafficRates, List.mem_cons, List.mem_singleton, List.not_mem_nil, or_false] at he
    rcases he with rfl | rfl | rfl | rfl <;> simpa using hin
  unfold simulateUnit at h
  cases hp : pickDest st.1.nodes.length nodeName st.2 with
  | none => simp [hp] at h
  | some r =>
    obtain ⟨dest, draws⟩ := r
    obtain ⟨⟨d, _, hd⟩, _⟩ := pickDest_some _ _ _ _ _ hp
    have hidx : d.index st.1.nodes.length < 5 := by
      rcases Nat.eq_zero_or_pos st.1.nodes.length with h0 | hpos
      · rw [h0, draw_index_zero]; decide
      · exact lt_of_lt_of_le (draw_index_lt d hpos) hn
    have hsome := findPathByName_backbone nodeName hmem _ hidx
    rw [← hd] at hsome
    obtain ⟨path, hpath⟩ := Option.isSome_iff_exists.1 hsome
    simp only [hp, hpath, Option.some.injEq] at h
    exact ⟨dest, path, hpath, by rw [← h]⟩

/-- Witness for C9 (amended): two nodes, source `A`, the draw `1/2`. -/
theorem simulateUnit_routes_witness :
    (({ State.init with nodes := [Val.null, Val.null] } : State).nodes.length ≤ 5 ∧
      (∃ entry ∈ trafficRates, "A" ∈ entry.2.map Prod.fst)) ∧
    ∃ dest path, findPathByName "A" dest = some path ∧
      [(⟨0, Val.num 0, Val.num 1, [Val.num 0, Val.num 1], Val.str "Auto 08:00", 0⟩ : Packet)] =
        ({ State.init with nodes := [Val.null, Val.null] } : State).packets ++
          [⟨0, Val.num (getNodeIndex "A"), Val.num (getNodeIndex dest),
            path.map (fun n => Val.num (getNodeIndex n)), Val.str ("Auto " ++ "08:00"), 0⟩] :=
  ⟨⟨by decide, ⟨("08:00", [("A", 50), ("B", 30), ("C", 40), ("D", 20), ("E", 60)]),
      by decide, by decide⟩⟩,
    simulateUnit_routes (fun n => n) "08:00" "A"
      ({ State.init with nodes := [Val.null, Val.null] }, [⟨1, 2, by decide⟩])
      (⟨[Val.null, Val.null], [],
          [⟨0, Val.num 0, Val.num 1, [Val.num 0, Val.num 1], Val.str "Auto 08:00", 0⟩], 0⟩, [])
      (by decide)
      ⟨("08:00", [("A", 50), ("B", 30), ("C", 40), ("D", 20), ("E", 60)]), by decide, by decide⟩
      (by decide)⟩

/-- C10 (counterexample).  With `nodes = ["X", "Y"]` the draw `1/2` picks the
name `B` for a unit of source `A`: neither the name nor its index 1 is a
member of the node list. -/
theorem pickDest_outside_nodes :
    2 ≤ [Val.str "X", Val.str "Y"].length ∧
    (pickDest [Val.str "X", Val.str "Y"].length "A" [⟨1, 2, by decide⟩]).map Prod.fst =
      some "B" ∧
    Val.str "B" ∉ [Val.str "X", Val.str "Y"] ∧
    Val.num (getNodeIndex "B") ∉ [Val.str "X", Val.str "Y"] := by
  decide

/-- C10 (amended).  For a node list with at least two entries and any
draws, the destination picked for a demand unit is `getNodeName i` for an
index `i` below `nodes.length`, and it differs from the unit's source. -/
theorem pickDest_spec (nodes : List Val) (nodeName : String) (draws rest : List Draw)
    (dest : String) (hn : 2 ≤ nodes.length)
    (h : pickDest nodes.length nodeName draws = some (dest, rest)) :
    (∃ i, i < nodes.length ∧ dest = getNodeName i) ∧ dest ≠ nodeName := by
  obtain ⟨⟨d, _, hd⟩, hne⟩ := pickDest_some _ _ _ _ _ h
  exact ⟨⟨d.index nodes.length, draw_index_lt d (by omega), hd⟩, hne⟩

/-- Witness for C10 (amended): two nodes, source `A`; the first draw picks
`A` again and is rejected, the second picks `B`. -/
theorem pickDest_spec_witness :
    (2 ≤ [Val.str "X", Val.str "Y"].length ∧
      (pickDest [Val.str "X", Val.str "Y"].length "A"
        [⟨1, 4, by decide⟩, ⟨3, 4, by decide⟩]).map Prod.fst = some "B") ∧
    ((∃ i, i < [Val.str "X", Val.str "Y"].length ∧ "B" = getNodeName i) ∧ "B" ≠ "A") :=
  ⟨⟨by decide, by decide⟩,
    pickDest_spec [Val.str "X", Val.str "Y"] "A" [⟨1, 4, by decide⟩, ⟨3, 4, by decide⟩] []
      "B" (by decide) (by decide)⟩

/-! ## Self paths, termination and the topology store: claims -/

/-- C15. For every connections list, empty ones and ones that do not mention
`u` included, `findPath(u, u)` returns the one-node path `[u]`. -/
theorem findPath_self {α : Type} [DecidableEq α] (connections : List (Conn α)) (u : α) :
    findPath connections u u = some [u] := by
  simp [findPath, bfs, searchFuel, bfsLoop]

/-- C16. After `set-network` with the given nodes and connections,
`get-network` returns exactly these, whatever the topology was before, with
the schedule's current timestamp and index; `set-network` leaves the packet
registry and the schedule cursor as they were (also when a field is
missing and replaced by the empty list). -/
theorem setNetwork_replaces (s : State) (nodes : List Val) (connections : List (Conn Val))
    (nodes? : Option (List Val)) (connections? : Option (List (Conn Val))) :
    getNetwork (setNetwork s (some nodes) (some connections)) =
        (nodes, connections, trafficTimes[s.timeIndex]?, s.timeIndex) ∧
      (setNetwork s nodes? connections?).packets = s.packets ∧
      (setNetwork s nodes? connections?).timeIndex = s.timeIndex :=
  ⟨rfl, rfl, rfl⟩

/-- C17. The loop of `findPath` ends for every connections list (cycles,
self-loops and duplicate connections included) and every `from_` and `to_`:
run for `searchFuel` iterations or more it has returned, and the value it
returns, a path or `null`, is the value of `findPath`; the same holds for
`findPathByName` over `links`. -/
theorem findPath_terminates {α : Type} [DecidableEq α] (connections : List (Conn α))
    (from_ to_ : α) (a b : String) :
    (∃ r, findPath connections from_ to_ = r ∧
        ∀ k, bfsLoop connections to_ (searchFuel connections + k) [[from_]] [] = some r) ∧
      (∃ r, findPathByName a b = r ∧
        ∀ k, bfsLoop linkConns b (searchFuel linkConns + k) [[a]] [] = some r) :=
  ⟨⟨_, rfl, fun k => bfsLoop_fuel_enough connections from_ to_ k⟩,
    ⟨_, rfl, fun k => bfsLoop_fuel_enough linkConns a b k⟩⟩

/-! ## The schedule cursor and the destination loop: claims -/

theorem pickDest_few_nodes {n : Nat} (hn : n < 2) :
    ∀ draws : List Draw, pickDest n "A" draws = none := by
  intro draws
  induction draws with
  | nil => rfl
  | cons d draws ih =>
    have hidx : d.index n = 0 := by
      rcases Nat.lt_succ_iff.1 hn with h
      interval_cases n
      · exact draw_index_zero d
      · simp [Draw.index, Nat.div_eq_of_lt d.lt]
    have hA : getNodeName (d.index n) = "A" := by rw [hidx]; decide
    simp only [pickDest, hA, if_true]
    exact ih

theorem simulateNode_none (ids : Nat → Nat) (time nodeName : String) (rate : Nat)
    (st : State × List Draw) (hr : 0 < rate) (h : simulateUnit ids time nodeName st = none) :
    simulateNode ids time nodeName rate st = none := by
  cases rate with
  | zero => omega
  | succ r => simp [simulateNode, h]

theorem simulateEntries_none (ids : Nat → Nat) (time nodeName : String) (rate : Nat)
    (entries : List (String × Nat)) (st : State × List Draw)
    (h : simulateNode ids time nodeName rate st = none) :
    simulateEntries ids time ((nodeName, rate) :: entries) st = none := by
  simp [simulateEntries, h]

/-- With fewer than two configured nodes no list of draws lets the call
answer. -/
theorem simulateInterval_few_nodes (ids : Nat → Nat) (s : State) (draws : List Draw)
    (hn : s.nodes.length < 2) (ht : s.timeIndex < trafficTimes.length) :
    simulateInterval ids s draws = SimResult.running := by
  have hunit : simulateUnit ids "08:00" "A" (s, draws) = none ∧
      simulateUnit ids "08:15" "A" (s, draws) = none ∧
      simulateUnit ids "08:30" "A" (s, draws) = none ∧
      simulateUnit ids "08:45" "A" (s, draws) = none := by
    simp [simulateUnit, pickDest_few_nodes hn]
  have hlen : trafficTimes.length = 4 := rfl
  rw [hlen] at ht
  unfold simulateInterval
  generalize hti : s.timeIndex = i at ht
  interval_cases i
  · have h := simulateEntries_none ids "08:00" "A" 50
      [("B", 30), ("C", 40), ("D", 20), ("E", 60)] (s, draws)
      (simulateNode_none ids _ _ 50 _ (by decide) hunit.1)
    simp [trafficTimes, trafficRates, List.lookup, h]
  · have h := simulateEntries_none ids "08:15" "A" 55
      [("B", 35), ("C", 45), ("D", 25), ("E", 65)] (s, draws)
      (simulateNode_none ids _ _ 55 _ (by decide) hunit.2.1)
    simp [trafficTimes, trafficRates, List.lookup, h]
  · have h := simulateEntries_none ids "08:30" "A" 60
      [("B", 40), ("C", 50), ("D", 30), ("E", 70)] (s, draws)
      (simulateNode_none ids _ _ 60 _ (by decide) hunit.2.2.1)
    simp [trafficTimes, trafficRates, List.lookup, h]
  · have h := simulateEntries_none ids "08:45" "A" 55
      [("B", 35), ("C", 45), ("D", 25), ("E", 65)] (s, draws)
      (simulateNode_none ids _ _ 55 _ (by decide) hunit.2.2.2)
    simp [trafficTimes, trafficRates, List.lookup, h]

/-- C14. With fewer than two configured nodes `simulate-interval` never
answers: every draw gives the candidate destination `A`, the first scheduled
source, whose rate is positive in every entry, so whatever the list of draws
the destination loop is still running after the last of them. -/
theorem simulateInterval_hangs (ids : Nat → Nat) (s : State) (draws : List Draw)
    (hn : s.nodes.length < 2) (ht : s.timeIndex < trafficTimes.length) :
    (∀ d : Draw, getNodeName (d.index s.nodes.length) = "A") ∧
      (∀ entry ∈ trafficRates, ∃ rate rest, entry.2 = ("A", rate) :: rest ∧ 0 < rate) ∧
      simulateInterval ids s draws = SimResult.running := by
  refine ⟨?_, ?_, ?_⟩
  · intro d
    have := pickDest_few_nodes hn [d]
    by_contra hne
    simp [pickDest, hne] at this
  · intro entry he
    simp only [trafficRates, List.mem_cons, List.mem_singleton, List.not_mem_nil, or_false] at he
    rcases he with rfl | rfl | rfl | rfl <;> exact ⟨_, _, rfl, by decide⟩
  · exact simulateInterval_few_nodes ids s draws hn ht

/-- Witness for C14: one configured node, cursor at 0, three draws. -/
theorem simulateInterval_hangs_witness :
    ((⟨[Val.str "A"], [], [], 0⟩ : State).nodes.length < 2 ∧
      (⟨[Val.str "A"], [], [], 0⟩ : State).timeIndex < trafficTimes.length) ∧
    simulateInterval (fun n => n) ⟨[Val.str "A"], [], [], 0⟩
      [⟨0, 1, by decide⟩, ⟨1, 2, by decide⟩, ⟨9, 10, by decide⟩] = SimResult.running :=
  ⟨⟨by decide, by decide⟩,
    (simulateInterval_hangs (fun n => n) ⟨[Val.str "A"], [], [], 0⟩
      [⟨0, 1, by decide⟩, ⟨1, 2, by decide⟩, ⟨9, 10, by decide⟩] (by decide) (by decide)).2.2⟩

/-! ## What `simulate-interval` appends -/

theorem simulateUnit_appends (ids : Nat → Nat) (time nodeName : String)
    (st st' : State × List Draw) (h : simulateUnit ids time nodeName st = some st') :
    st'.1.nodes = st.1.nodes ∧ st'.1.connections = st.1.connections ∧
      st'.1.timeIndex = st.1.timeIndex ∧
      ∃ added, st'.1.packets = st.1.packets ++ added ∧
        BlockOk time st.1.nodes.length (nodeName, 1) added := by
  unfold simulateUnit at h
  cases hp : pickDest st.1.nodes.length nodeName st.2 with
  | none => simp [hp] at h
  | some r =>
    obtain ⟨dest, draws⟩ := r
    obtain ⟨⟨d, _, hd⟩, hne⟩ := pickDest_some _ _ _ _ _ hp
    cases hf : findPathByName nodeName dest with
    | none =>
      simp only [hp, hf, Option.some.injEq] at h
      rw [← h]
      refine ⟨rfl, rfl, rfl, [], by simp, ?_, ?_, ?_⟩
      · simp
      · intro pkt hpkt; cases hpkt
      · intro hn hmem
        have hidx : d.index st.1.nodes.length < 5 := by
          rcases Nat.eq_zero_or_pos st.1.nodes.length with h0 | hpos
          · rw [h0, draw_index_zero]; decide
          · exact lt_of_lt_of_le (draw_index_lt d hpos) hn
        have hsome := findPathByName_backbone nodeName hmem _ hidx
        rw [← hd, hf] at hsome
        cases hsome
    | some path =>
      simp only [hp, hf, Option.some.injEq] at h
      rw [← h]
      refine ⟨rfl, rfl, rfl, _, rfl, ?_, ?_, ?_⟩
      · simp
      · intro pkt hpkt
        rw [List.mem_singleton.1 hpkt]
        exact ⟨rfl, rfl, rfl, dest, hne, ⟨d, hd⟩, rfl⟩
      · intro _ _; rfl

theorem simulateNode_appends (ids : Nat → Nat) (time nodeName : String) :
    ∀ (rate : Nat) (st st' : State × List Draw),
      simulateNode ids time nodeName rate st = some st' →
      st'.1.nodes = st.1.nodes ∧ st'.1.connections = st.1.connections ∧
        st'.1.timeIndex = st.1.timeIndex ∧
        ∃ added, st'.1.packets = st.1.packets ++ added ∧
          BlockOk time st.1.nodes.length (nodeName, rate) added := by
  intro rate
  induction rate with
  | zero =>
    intro st st' h
    simp only [simulateNode, Option.some.injEq] at h
    rw [← h]
    exact ⟨rfl, rfl, rfl, [], by simp, by simp, by simp, by simp⟩
  | succ rate ih =>
    intro st st' h
    simp only [simulateNode] at h
    cases hu : simulateUnit ids time nodeName st with
    | none => simp [hu] at h
    | some mid =>
      rw [hu] at h
      obtain ⟨hn, hc, ht, a₁, hp₁, hl₁, hu₁, he₁⟩ := simulateUnit_appends ids time nodeName st mid hu
      obtain ⟨hn', hc', ht', a₂, hp₂, hl₂, hu₂, he₂⟩ := ih mid st' h
      rw [hn] at hu₂ he₂
      dsimp only at hl₁ hl₂ hu₁ hu₂ he₁ he₂
      refine ⟨hn'.trans hn, hc'.trans hc, ht'.trans ht, a₁ ++ a₂, ?_, ?_, ?_, ?_⟩
      · rw [hp₂, hp₁, List.append_assoc]
      · simp only [List.length_append]
        omega
      · intro pkt hpkt
        rcases List.mem_append.1 hpkt with hpkt | hpkt
        · exact hu₁ pkt hpkt
        · exact hu₂ pkt hpkt
      · intro h5 hmem
        have e₁ := he₁ h5 hmem
        have e₂ := he₂ h5 hmem
        simp only [List.length_append]
        omega

theorem simulateEntries_appends (ids : Nat → Nat) (time : String) :
    ∀ (entries : List (String × Nat)) (st st' : State × List Draw),
      simulateEntries ids time entries st = some st' →
      st'.1.nodes = st.1.nodes ∧ st'.1.connections = st.1.connections ∧
        st'.1.timeIndex = st.1.timeIndex ∧
        ∃ blocks : List (List Packet), st'.1.packets = st.1.packets ++ blocks.flatten ∧
          List.Forall₂ (BlockOk time st.1.nodes.length) entries blocks := by
  intro entries
  induction entries with
  | nil =>
    intro st st' h
    simp only [simulateEntries, Option.some.injEq] at h
    rw [← h]
    exact ⟨rfl, rfl, rfl, [], by simp, List.Forall₂.nil⟩
  | cons e entries ih =>
    intro st st' h
    obtain ⟨nodeName, rate⟩ := e
    simp only [simulateEntries] at h
    cases hu : simulateNode ids time nodeName rate st with
    | none => simp [hu] at h
    | some mid =>
      rw [hu] at h
      obtain ⟨hn, hc, ht, a₁, hp₁, hb₁⟩ := simulateNode_appends ids time nodeName rate st mid hu
      obtain ⟨hn', hc', ht', bs, hp₂, hb₂⟩ := ih mid st' h
      rw [hn] at hb₂
      refine ⟨hn'.trans hn, hc'.trans hc, ht'.trans ht, a₁ :: bs, ?_, List.Forall₂.cons hb₁ hb₂⟩
      rw [hp₂, hp₁, List.flatten_cons, List.append_assoc]

theorem schedule_lookup {i : Nat} {t : String} {rates : List (String × Nat)}
    (ht : trafficTimes[i]? = some t) (hr : trafficRates.lookup t = some rates) :
    (t, rates) ∈ trafficRates := by
  obtain ⟨hi, hti⟩ := List.getElem?_eq_some_iff.1 ht
  have hlen : trafficTimes.length = 4 := rfl
  rw [hlen] at hi
  interval_cases i <;>
  · simp only [trafficTimes, trafficRates, List.map_cons, List.getElem_cons_zero,
      List.getElem_cons_succ] at hti
    subst hti
    simp only [trafficRates, List.lookup] at hr
    have hr' := Option.some.inj hr
    subst hr'
    simp [trafficRates]

/-- What a call of `simulate-interval` that answers has done. -/
theorem simulateInterval_done (ids : Nat → Nat) (s s' : State) (draws rest : List Draw)
    (time : Option String) (h : simulateInterval ids s draws = SimResult.done s' time rest) :
    ∃ t rates blocks, trafficTimes[s.timeIndex]? = some t ∧ (t, rates) ∈ trafficRates ∧
      s'.nodes = s.nodes ∧ s'.connections = s.connections ∧
      s'.packets = s.packets ++ List.flatten blocks ∧
      List.Forall₂ (BlockOk t s.nodes.length) rates blocks ∧
      s'.timeIndex = (s.timeIndex + 1) % trafficTimes.length ∧
      time = trafficTimes[(s.timeIndex + 1) % trafficTimes.length]? := by
  unfold simulateInterval at h
  cases ht : trafficTimes[s.timeIndex]? with
  | none => simp [ht] at h
  | some t =>
    cases hr : trafficRates.lookup t with
    | none => simp [ht, hr] at h
    | some rates =>
      cases he : simulateEntries ids t rates (s, draws) with
      | none => simp [ht, hr, he] at h
      | some st =>
        simp only [ht, hr, he, SimResult.done.injEq] at h
        obtain ⟨hn, hc, hti, blocks, hp, hb⟩ := simulateEntries_appends ids t rates (s, draws) st he
        obtain ⟨h1, h2, _⟩ := h
        refine ⟨t, rates, blocks, rfl, schedule_lookup ht hr, ?_, ?_, ?_, hb, ?_, ?_⟩
        · rw [← h1]; exact hn
        · rw [← h1]; exact hc
        · rw [← h1]; exact hp
        · rw [← h1]
          show (st.1.timeIndex + 1) % trafficTimes.length = _
          rw [hti]
        · rw [← h2, hti]

theorem exists_done_of_isDone {r : SimResult} (h : r.isDone = true) :
    ∃ s time rest, r = SimResult.done s time rest := by
  cases r with
  | done s time rest => exact ⟨s, time, rest, rfl⟩
  | running => cases h
  | typeError => cases h

theorem forall₂_exists_left {α β : Type} {R : α → β → Prop} {as : List α} {bs : List β}
    (h : List.Forall₂ R as bs) : ∀ b ∈ bs, ∃ a ∈ as, R a b := by
  induction h with
  | nil => intro b hb; cases hb
  | cons hab _ ih =>
    intro b hb
    rcases List.mem_cons.1 hb with rfl | hb
    · exact ⟨_, List.mem_cons_self _ _, hab⟩
    · obtain ⟨a, ha, hr⟩ := ih b hb
      exact ⟨a, List.mem_cons_of_mem _ ha, hr⟩

theorem mem_blocks {time : String} {n : Nat} {entries : List (String × Nat)}
    {blocks : List (List Packet)} (hb : List.Forall₂ (BlockOk time n) entries blocks)
    {pkt : Packet} (hp : pkt ∈ blocks.flatten) :
    ∃ e ∈ entries, UnitPacket time e.1 n pkt := by
  obtain ⟨block, hblock, hmem⟩ := List.mem_flatten.1 hp
  obtain ⟨e, he, hok⟩ := forall₂_exists_left hb block hblock
  exact ⟨e, he, hok.2.1 pkt hmem⟩

/-- On the backbone names `getNodeIndex` tells the names apart. -/
theorem getNodeIndex_backbone :
    ∀ src ∈ ["A", "B", "C", "D", "E"], ∀ i, i < 5 →
      getNodeIndex (getNodeName i) = getNodeIndex src → getNodeName i = src := by
  decide

theorem unitPacket_distinct {time nodeName : String} {n : Nat} {pkt : Packet}
    (h : UnitPacket time nodeName n pkt) (h5 : n ≤ 5)
    (hmem : nodeName ∈ ["A", "B", "C", "D", "E"]) : pkt.to_ ≠ pkt.from_ := by
  obtain ⟨_, _, hfrom, dest, hne, ⟨d, hd⟩, hto⟩ := h
  have hidx : d.index n < 5 := by
    rcases Nat.eq_zero_or_pos n with h0 | hpos
    · rw [h0, draw_index_zero]; decide
    · exact lt_of_lt_of_le (draw_index_lt d hpos) h5
  intro heq
  rw [hfrom, hto, hd] at heq
  have := getNodeIndex_backbone nodeName hmem _ hidx (Val.num.inj heq)
  exact hne (hd.trans this)

theorem blocks_exact {time : String} {n : Nat} {entries : List (String × Nat)}
    {blocks : List (List Packet)} (hb : List.Forall₂ (BlockOk time n) entries blocks)
    (h5 : n ≤ 5) (hnames : ∀ e ∈ entries, e.1 ∈ ["A", "B", "C", "D", "E"])
    (hnd : (entries.map (fun e => getNodeIndex e.1)).Nodup) :
    blocks.flatten.length = (entries.map Prod.snd).sum ∧
      ∀ e ∈ entries,
        blocks.flatten.countP (fun pkt => decide (pkt.from_ = Val.num (getNodeIndex e.1))) =
          e.2 := by
  induction hb with
  | nil => exact ⟨rfl, fun e he => by cases he⟩
  | cons hok hrest ih =>
    rename_i e b es bs
    have hnd' : getNodeIndex e.1 ∉ es.map (fun e => getNodeIndex e.1) ∧
        (es.map (fun e => getNodeIndex e.1)).Nodup := List.nodup_cons.1 hnd
    obtain ⟨hlen, hcount⟩ := ih (fun e' he' => hnames e' (List.mem_cons_of_mem _ he')) hnd'.2
    have hb_len : b.length = e.2 := hok.2.2 h5 (hnames e (List.mem_cons_self _ _))
    have hb_from : ∀ pkt ∈ b, pkt.from_ = Val.num (getNodeIndex e.1) :=
      fun pkt hp => (hok.2.1 pkt hp).2.2.1
    constructor
    · simp only [List.flatten_cons, List.length_append, List.map_cons, List.sum_cons, hb_len,
        hlen]
    · intro e' he'
      simp only [List.flatten_cons, List.countP_append]
      rcases List.mem_cons.1 he' with rfl | he'
      · have h1 : b.countP (fun pkt => decide (pkt.from_ = Val.num (getNodeIndex e'.1))) =
            b.length :=
          List.countP_eq_length.2 (fun pkt hp => by simp [hb_from pkt hp])
        have h2 : bs.flatten.countP
            (fun pkt => decide (pkt.from_ = Val.num (getNodeIndex e'.1))) = 0 := by
          refine List.countP_eq_zero.2 ?_
          intro pkt hp hdec
          obtain ⟨e'', he'', hu⟩ := mem_blocks hrest hp
          have hfrom := hu.2.2.1
          rw [of_decide_eq_true hdec] at hfrom
          exact hnd'.1 (List.mem_map.2 ⟨e'', he'', (Val.num.inj hfrom).symm⟩)
        rw [h1, h2, hb_len]
        rfl
      · have h1 : b.countP (fun pkt => decide (pkt.from_ = Val.num (getNodeIndex e'.1))) = 0 := by
          refine List.countP_eq_zero.2 ?_
          intro pkt hp hdec
          have hfrom := hb_from pkt hp
          rw [of_decide_eq_true hdec] at hfrom
          exact hnd'.1 (List.mem_map.2 ⟨e', he', Val.num.inj hfrom⟩)
        rw [h1, hcount e' he', Nat.zero_add]

theorem schedule_names :
    ∀ entry ∈ trafficRates, (∀ e ∈ entry.2, e.1 ∈ ["A", "B", "C", "D", "E"]) ∧
      (entry.2.map (fun e => getNodeIndex e.1)).Nodup := by
  decide

theorem schedule_entry_exists :
    ∀ i, i < trafficTimes.length →
      ((trafficTimes[i]?).bind (fun t => trafficRates.lookup t)).isSome = true := by
  decide

/-! ## Calls of `simulate-interval` that answer -/

theorem exitDraw_exits (n : Nat) (nodeName : String) (hn : 2 ≤ n) :
    getNodeName ((exitDraw n nodeName).index n) ≠ nodeName := by
  unfold exitDraw
  by_cases h : nodeName = "A"
  · have h1 : 1 < n := by omega
    have hidx : (1 * n) / n = 1 := by rw [Nat.one_mul]; exact Nat.div_self (by omega)
    simp only [h, h1, and_self, dite_true, Draw.index, hidx]
    decide
  · have hidx : (0 * n) / 1 = 0 := by simp
    simp only [h, false_and, dite_false, Draw.index, hidx]
    intro e
    exact h (e.symm.trans (by decide))

theorem simulateUnit_answers (ids : Nat → Nat) (time nodeName : String) (s : State)
    (d : Draw) (rest : List Draw) (h : getNodeName (d.index s.nodes.length) ≠ nodeName) :
    ∃ s', simulateUnit ids time nodeName (s, d :: rest) = some (s', rest) ∧
      s'.nodes = s.nodes := by
  unfold simulateUnit
  have hp : pickDest s.nodes.length nodeName (d :: rest) =
      some (getNodeName (d.index s.nodes.length), rest) := by
    simp [pickDest, h]
  cases hf : findPathByName nodeName (getNodeName (d.index s.nodes.length)) with
  | none => exact ⟨s, by simp [hp, hf], rfl⟩
  | some path =>
    exact ⟨{ s with packets := s.packets ++
        [⟨ids s.packets.length, Val.num (getNodeIndex nodeName),
          Val.num (getNodeIndex (getNodeName (d.index s.nodes.length))),
          path.map (fun n => Val.num (getNodeIndex n)), Val.str ("Auto " ++ time), 0⟩] },
      by simp only [hp, hf], rfl⟩

theorem simulateNode_answers (ids : Nat → Nat) (time nodeName : String) (n : Nat) (d : Draw)
    (h : getNodeName (d.index n) ≠ nodeName) :
    ∀ (rate : Nat) (s : State) (rest : List Draw), s.nodes.length = n →
      ∃ s', simulateNode ids time nodeName rate (s, List.replicate rate d ++ rest) =
          some (s', rest) ∧ s'.nodes.length = n := by
  intro rate
  induction rate with
  | zero => intro s rest hs; exact ⟨s, rfl, hs⟩
  | succ rate ih =>
    intro s rest hs
    obtain ⟨mid, hmid, hnodes⟩ := simulateUnit_answers ids time nodeName s d
      (List.replicate rate d ++ rest) (by rw [hs]; exact h)
    obtain ⟨s', hs', hlen⟩ := ih mid rest (by rw [hnodes]; exact hs)
    refine ⟨s', ?_, hlen⟩
    rw [List.replicate_succ, List.cons_append, simulateNode, hmid]
    exact hs'

theorem simulateEntries_answers (ids : Nat → Nat) (time : String) (n : Nat) (hn : 2 ≤ n) :
    ∀ (entries : List (String × Nat)) (s : State) (rest : List Draw), s.nodes.length = n →
      ∃ s', simulateEntries ids time entries (s, exitDraws n entries ++ rest) =
          some (s', rest) ∧ s'.nodes.length = n := by
  intro entries
  induction entries with
  | nil => intro s rest hs; exact ⟨s, rfl, hs⟩
  | cons e entries ih =>
    intro s rest hs
    obtain ⟨nodeName, rate⟩ := e
    obtain ⟨mid, hmid, hlen⟩ := simulateNode_answers ids time nodeName n (exitDraw n nodeName)
      (exitDraw_exits n nodeName hn) rate s (exitDraws n entries ++ rest) hs
    obtain ⟨s', hs', hlen'⟩ := ih mid rest hlen
    refine ⟨s', ?_, hlen'⟩
    have hd : exitDraws n ((nodeName, rate) :: entries) ++ rest =
        List.replicate rate (exitDraw n nodeName) ++ (exitDraws n entries ++ rest) := by
      simp [exitDraws, List.flatMap_cons, List.append_assoc]
    rw [hd, simulateEntries, hmid]
    exact hs'

/-- With at least two configured nodes and the cursor inside the table there
are draws on which the call answers. -/
theorem simulateInterval_answers (ids : Nat → Nat) (s : State) (h2 : 2 ≤ s.nodes.length)
    (ht : s.timeIndex < trafficTimes.length) :
    ∃ draws s' time rest, simulateInterval ids s draws = SimResult.done s' time rest := by
  have hentry := schedule_entry_exists s.timeIndex ht
  cases htime : trafficTimes[s.timeIndex]? with
  | none => simp [htime] at hentry
  | some t =>
    cases hrates : trafficRates.lookup t with
    | none => simp [htime, hrates] at hentry
    | some rates =>
      obtain ⟨s', hs', _⟩ := simulateEntries_answers ids t s.nodes.length h2 rates s [] rfl
      refine ⟨exitDraws s.nodes.length rates ++ [],
        { s' with timeIndex := (s'.timeIndex + 1) % trafficTimes.length },
        trafficTimes[(s'.timeIndex + 1) % trafficTimes.length]?, [], ?_⟩
      unfold simulateInterval
      simp only [htime, hrates, hs']

theorem simulateCalls_answer (ids : Nat → Nat) :
    ∀ (k : Nat) (s : State), 2 ≤ s.nodes.length → s.timeIndex < trafficTimes.length →
      ∃ drawsList : List (List Draw), drawsList.length = k ∧
        ∃ s', simulateCalls (drawsList.map (fun draws => (ids, draws))) s = some s' := by
  intro k
  induction k with
  | zero => intro s _ _; exact ⟨[], rfl, s, rfl⟩
  | succ k ih =>
    intro s h2 ht
    obtain ⟨draws, mid, time, rest, hdone⟩ := simulateInterval_answers ids s h2 ht
    obtain ⟨_, _, _, _, _, hnodes, _, _, _, hti, _⟩ :=
      simulateInterval_done ids s mid draws rest time hdone
    have hmid : mid.timeIndex < trafficTimes.length := by
      rw [hti]; exact Nat.mod_lt _ (by decide)
    obtain ⟨drawsList, hlen, s', hs'⟩ := ih mid (by rw [hnodes]; exact h2) hmid
    refine ⟨draws :: drawsList, by simp [hlen], s', ?_⟩
    simp only [List.map_cons, simulateCalls, hdone]
    exact hs'

/-! ## `simulate-interval`: claims -/

/-- C11 (counterexample).  On a freshly started server (no node
configured, cursor at 0) a `simulate-interval` call returns no timestamp:
whatever the ids and the draws, it does not answer. -/
theorem simulateInterval_fresh_no_answer :
    State.init.nodes = [] ∧ State.init.timeIndex = 0 ∧
      ∀ (ids : Nat → Nat) (draws : List Draw),
        ¬ ∃ s' time rest, simulateInterval ids State.init draws = SimResult.done s' time rest := by
  refine ⟨rfl, rfl, ?_⟩
  rintro ids draws ⟨s', time, rest, h⟩
  rw [simulateInterval_few_nodes ids State.init draws (by decide) (by decide)] at h
  cases h

/-- C11 (amended).  With at least two configured nodes and the cursor at an
index `i` of the table, there are outcomes of the destination draws on which
a `simulate-interval` call answers; and every call that answers gives every
packet it appends progress 0 and the payload `'Auto '` followed by
`trafficTimes[i]`, the timestamp before the advance, and returns
`trafficTimes[(i + 1) mod N]`, which is the timestamp that `get-network`
reports right afterwards, together with the index `(i + 1) mod N`. -/
theorem simulateInterval_tags (ids : Nat → Nat) (s : State) (h2 : 2 ≤ s.nodes.length)
    (ht : s.timeIndex < trafficTimes.length) :
    (∃ draws s' time rest, simulateInterval ids s draws = SimResult.done s' time rest) ∧
      ∀ (draws rest : List Draw) (s' : State) (time : Option String),
        simulateInterval ids s draws = SimResult.done s' time rest →
        ∃ t added, trafficTimes[s.timeIndex]? = some t ∧ s'.packets = s.packets ++ added ∧
          (∀ pkt ∈ added, pkt.progress = 0 ∧ pkt.payload = Val.str ("Auto " ++ t)) ∧
          time = trafficTimes[(s.timeIndex + 1) % trafficTimes.length]? ∧
          getNetwork s' =
            (s.nodes, s.connections, time, (s.timeIndex + 1) % trafficTimes.length) := by
  refine ⟨simulateInterval_answers ids s h2 ht, ?_⟩
  intro draws rest s' time h
  obtain ⟨t, rates, blocks, ht', _, hn, hc, hp, hb, hti, htime⟩ :=
    simulateInterval_done ids s s' draws rest time h
  refine ⟨t, blocks.flatten, ht', hp, ?_, htime, ?_⟩
  · intro pkt hpkt
    obtain ⟨e, _, hu⟩ := mem_blocks hb hpkt
    exact ⟨hu.1, hu.2.1⟩
  · simp only [getNetwork, hn, hc, hti, htime]

/-- Witness for C11 (amended): two configured nodes, cursor at 0, and the
call on the sample draws, which answers. -/
theorem simulateInterval_tags_witness :
    (2 ≤ (⟨[Val.null, Val.null], [], [], 0⟩ : State).nodes.length ∧
      (⟨[Val.null, Val.null], [], [], 0⟩ : State).timeIndex < trafficTimes.length) ∧
    ∃ s' time rest,
      simulateInterval (fun n => n) ⟨[Val.null, Val.null], [], [], 0⟩ (sampleDraws 50 150) =
        SimResult.done s' time rest ∧
      ∃ t added, trafficTimes[(⟨[Val.null, Val.null], [], [], 0⟩ : State).timeIndex]? = some t ∧
        s'.packets = (⟨[Val.null, Val.null], [], [], 0⟩ : State).packets ++ added ∧
        (∀ pkt ∈ added, pkt.progress = 0 ∧ pkt.payload = Val.str ("Auto " ++ t)) ∧
        time = trafficTimes[((⟨[Val.null, Val.null], [], [], 0⟩ : State).timeIndex + 1) %
          trafficTimes.length]? ∧
        getNetwork s' =
          ((⟨[Val.null, Val.null], [], [], 0⟩ : State).nodes,
            (⟨[Val.null, Val.null], [], [], 0⟩ : State).connections, time,
            ((⟨[Val.null, Val.null], [], [], 0⟩ : State).timeIndex + 1) %
              trafficTimes.length) := by
  obtain ⟨s', time, rest, h⟩ := @exists_done_of_isDone
    (simulateInterval (fun n => n) ⟨[Val.null, Val.null], [], [], 0⟩ (sampleDraws 50 150))
    (by decide)
  exact ⟨⟨by decide, by decide⟩, s', time, rest, h,
    (simulateInterval_tags (fun n => n) ⟨[Val.null, Val.null], [], [], 0⟩ (by decide)
      (by decide)).2 _ _ _ _ h⟩

/-- C12. With at most five configured nodes (a call that answers has at
least two), a `simulate-interval` call that answers appends, behind the
packets already registered and without touching them, exactly one packet per
demand unit of the current schedule entry: the sum of its rates in all, for
each node with rate `R` exactly `R` packets with that source, and every one
of them with a destination different from its source. -/
theorem simulateInterval_counts (ids : Nat → Nat) (s s' : State) (draws rest : List Draw)
    (time : Option String) (h5 : s.nodes.length ≤ 5)
    (h : simulateInterval ids s draws = SimResult.done s' time rest) :
    ∃ t rates added, trafficTimes[s.timeIndex]? = some t ∧ (t, rates) ∈ trafficRates ∧
      s'.packets = s.packets ++ added ∧ added.length = (rates.map Prod.snd).sum ∧
      (∀ e ∈ rates,
        added.countP (fun pkt => decide (pkt.from_ = Val.num (getNodeIndex e.1))) = e.2) ∧
      ∀ pkt ∈ added, pkt.to_ ≠ pkt.from_ := by
  obtain ⟨t, rates, blocks, ht, hmem, _, _, hp, hb, _, _⟩ :=
    simulateInterval_done ids s s' draws rest time h
  obtain ⟨hnames, hnd⟩ := schedule_names (t, rates) hmem
  obtain ⟨hlen, hcount⟩ := blocks_exact hb h5 hnames hnd
  refine ⟨t, rates, blocks.flatten, ht, hmem, hp, hlen, hcount, ?_⟩
  intro pkt hpkt
  obtain ⟨e, he, hu⟩ := mem_blocks hb hpkt
  exact unitPacket_distinct hu h5 (hnames e he)

/-- Witness for C12: two configured nodes, cursor at 1, a call that
answers. -/
theorem simulateInterval_counts_witness :
    (⟨[Val.null, Val.null], [], [], 1⟩ : State).nodes.length ≤ 5 ∧
    ∃ s' time rest,
      simulateInterval (fun n => n) ⟨[Val.null, Val.null], [], [], 1⟩ (sampleDraws 55 170) =
        SimResult.done s' time rest ∧
      ∃ t rates added, trafficTimes[(⟨[Val.null, Val.null], [], [], 1⟩ : State).timeIndex]? =
          some t ∧ (t, rates) ∈ trafficRates ∧
        s'.packets = (⟨[Val.null, Val.null], [], [], 1⟩ : State).packets ++ added ∧
        added.length = (rates.map Prod.snd).sum ∧
        (∀ e ∈ rates,
          added.countP (fun pkt => decide (pkt.from_ = Val.num (getNodeIndex e.1))) = e.2) ∧
        ∀ pkt ∈ added, pkt.to_ ≠ pkt.from_ := by
  obtain ⟨s', time, rest, h⟩ := @exists_done_of_isDone
    (simulateInterval (fun n => n) ⟨[Val.null, Val.null], [], [], 1⟩ (sampleDraws 55 170))
    (by decide)
  exact ⟨by decide, s', time, rest, h, simulateInterval_counts _ _ _ _ _ _ (by decide) h⟩

theorem simulateCalls_cursor :
    ∀ (calls : List ((Nat → Nat) × List Draw)) (s s' : State),
      s.timeIndex < trafficTimes.length → simulateCalls calls s = some s' →
      s'.timeIndex = (s.timeIndex + calls.length) % trafficTimes.length := by
  intro calls
  induction calls with
  | nil =>
    intro s s' ht h
    simp only [simulateCalls, Option.some.injEq] at h
    rw [← h, List.length_nil, Nat.add_zero, Nat.mod_eq_of_lt ht]
  | cons call calls ih =>
    intro s s' ht h
    simp only [simulateCalls] at h
    cases hr : simulateInterval call.1 s call.2 with
    | running => simp [hr] at h
    | typeError => simp [hr] at h
    | done mid time rest =>
      rw [hr] at h
      obtain ⟨_, _, _, _, _, _, _, _, _, hti, _⟩ :=
        simulateInterval_done call.1 s mid call.2 rest time hr
      have hpos : 0 < trafficTimes.length := by decide
      have hmid : mid.timeIndex < trafficTimes.length := by
        rw [hti]; exact Nat.mod_lt _ hpos
      rw [ih mid s' hmid h, hti, List.length_cons, Nat.mod_add_mod]
      congr 1
      omega

/-- C13 (counterexample).  On a freshly started server (cursor 0, no node
configured) no sequence of `N` `simulate-interval` calls is ever completed:
already the first call does not answer and so never moves the cursor. -/
theorem simulateCalls_fresh_stuck :
    State.init.timeIndex < trafficTimes.length ∧
      ∀ calls : List ((Nat → Nat) × List Draw), calls.length = trafficTimes.length →
        simulateCalls calls State.init = none := by
  refine ⟨by decide, ?_⟩
  intro calls hlen
  cases calls with
  | nil => cases hlen
  | cons call calls =>
    simp only [simulateCalls,
      simulateInterval_few_nodes call.1 State.init call.2 (by decide) (by decide)]

/-- C13 (amended).  With at least two configured nodes and a cursor in
`[0, N)` (`N = 4` schedule entries), there are outcomes of the draws on
which `N` consecutive `simulate-interval` calls all answer; whenever `N`
consecutive calls answer, `timeIndex` is back at its value; and each call
that answers moves it to `(timeIndex + 1) mod N`, which lies in `[0, N)` and
selects an existing schedule entry. -/
theorem simulateCalls_cycle (s : State) (h2 : 2 ≤ s.nodes.length)
    (ht : s.timeIndex < trafficTimes.length) :
    trafficTimes.length = 4 ∧
      (∀ ids : Nat → Nat, ∃ drawsList : List (List Draw),
        drawsList.length = trafficTimes.length ∧
          ∃ s', simulateCalls (drawsList.map (fun draws => (ids, draws))) s = some s') ∧
      (∀ (calls : List ((Nat → Nat) × List Draw)) (s' : State),
        calls.length = trafficTimes.length → simulateCalls calls s = some s' →
        s'.timeIndex = s.timeIndex) ∧
      ∀ (ids : Nat → Nat) (draws rest : List Draw) (mid : State) (time : Option String),
        simulateInterval ids s draws = SimResult.done mid time rest →
        mid.timeIndex = (s.timeIndex + 1) % trafficTimes.length ∧
          mid.timeIndex < trafficTimes.length ∧
          ((trafficTimes[mid.timeIndex]?).bind (fun t => trafficRates.lookup t)).isSome = true := by
  refine ⟨rfl, fun ids => simulateCalls_answer ids _ s h2 ht, ?_, ?_⟩
  · intro calls s' hlen h
    rw [simulateCalls_cursor calls s s' ht h, hlen, Nat.add_mod_right, Nat.mod_eq_of_lt ht]
  · intro ids draws rest mid time hr
    obtain ⟨_, _, _, _, _, _, _, _, _, hti, _⟩ := simulateInterval_done ids s mid draws rest time hr
    have hmid : mid.timeIndex < trafficTimes.length := by
      rw [hti]; exact Nat.mod_lt _ (by decide)
    exact ⟨hti, hmid, schedule_entry_exists _ hmid⟩

/-- Witness for C13 (amended): four calls on the sample draws with two
configured nodes, from cursor 2; they all answer. -/
theorem simulateCalls_cycle_witness :
    (2 ≤ (⟨[Val.null, Val.null], [], [], 2⟩ : State).nodes.length ∧
      (⟨[Val.null, Val.null], [], [], 2⟩ : State).timeIndex < trafficTimes.length) ∧
    ∃ s', simulateCalls [((fun n => n), sampleDraws 60 190), ((fun n => n), sampleDraws 55 170),
        ((fun n => n), sampleDraws 50 150), ((fun n => n), sampleDraws 55 170)]
        ⟨[Val.null, Val.null], [], [], 2⟩ = some s' ∧
      s'.timeIndex = (⟨[Val.null, Val.null], [], [], 2⟩ : State).timeIndex := by
  obtain ⟨s', h⟩ := Option.isSome_iff_exists.1
    (show (simulateCalls [((fun n => n), sampleDraws 60 190), ((fun n => n), sampleDraws 55 170),
        ((fun n => n), sampleDraws 50 150), ((fun n => n), sampleDraws 55 170)]
        ⟨[Val.null, Val.null], [], [], 2⟩).isSome = true by decide)
  exact ⟨⟨by decide, by decide⟩, s', h,
    (simulateCalls_cycle ⟨[Val.null, Val.null], [], [], 2⟩ (by decide) (by decide)).2.2.1
      _ s' (by decide) h⟩

/-! ## The registry never shrinks: claim -/

theorem advancePackets_keeps (packets : List Packet)
    (h : ∀ pkt ∈ packets, pkt.progress < (pkt.path.length : Int)) :
    List.Forall₂ (fun old new => new.id = old.id ∧ new.from_ = old.from_ ∧
        new.to_ = old.to_ ∧ new.path = old.path ∧ new.payload = old.payload ∧
        (new.progress = old.progress ∨ new.progress = old.progress + 1))
      packets (advancePackets packets) := by
  induction packets with
  | nil => exact List.Forall₂.nil
  | cons pkt rest ih =>
    have hp := h pkt (List.mem_cons_self _ _)
    have ih' := ih (fun q hq => h q (List.mem_cons_of_mem _ hq))
    rw [show pkt :: rest = [pkt] ++ rest from rfl, advancePackets_append]
    by_cases hlt : pkt.progress < (pkt.path.length : Int) - 1
    · have hkeep : pkt.progress + 1 < (pkt.path.length : Int) := by omega
      have : advancePackets [pkt] = [{ pkt with progress := pkt.progress + 1 }] := by
        simp [advancePackets, hlt, hkeep]
      rw [this]
      exact List.Forall₂.cons ⟨rfl, rfl, rfl, rfl, rfl, Or.inr rfl⟩ ih'
    · have : advancePackets [pkt] = [pkt] := by
        simp [advancePackets, hlt, hp]
      rw [this]
      exact List.Forall₂.cons ⟨rfl, rfl, rfl, rfl, rfl, Or.inl rfl⟩ ih'

theorem step_length_le {s s' : State} (hr : ReachableState s) (hs : Step s s') :
    s.packets.length ≤ s'.packets.length := by
  cases hs with
  | setNetwork nodes connections => exact le_refl _
  | sendPacket from_ to_ payload id =>
    unfold sendPacket
    cases findPath s.connections from_ to_ with
    | none => exact le_refl _
    | some path => simp
  | simulateInterval ids draws _ time rest h =>
    obtain ⟨_, _, blocks, _, _, _, _, hp, _⟩ := simulateInterval_done ids s s' draws rest time h
    rw [hp, List.length_append]
    exact Nat.le_add_right _ _
  | advance =>
    have hok := reachableState_ok hr
    have := (advancePackets_keeps s.packets (fun pkt hp => (hok pkt hp).2.1)).length_eq
    show s.packets.length ≤ (advancePackets s.packets).length
    omega

/-- C20. No packet is ever removed.  On a registry in which every packet has
`progress < length(path)` (as in every reachable state), `advance` returns as
many packets in the same order, each with the `id`, `from`, `to`, `path` and
`payload` of its predecessor and a progress that is the same or one more; and
no request handled in a reachable state makes the registry smaller. -/
theorem registry_never_shrinks (packets : List Packet) (s s' : State)
    (h : ∀ pkt ∈ packets, pkt.progress < (pkt.path.length : Int))
    (hr : ReachableState s) (hs : Step s s') :
    (advancePackets packets).length = packets.length ∧
      List.Forall₂ (fun old new => new.id = old.id ∧ new.from_ = old.from_ ∧
          new.to_ = old.to_ ∧ new.path = old.path ∧ new.payload = old.payload ∧
          (new.progress = old.progress ∨ new.progress = old.progress + 1))
        packets (advancePackets packets) ∧
      s.packets.length ≤ s'.packets.length :=
  ⟨(advancePackets_keeps packets h).length_eq.symm, advancePackets_keeps packets h,
    step_length_le hr hs⟩

/-- Witness for C20: a registry of two packets, one of them delivered, and
the tick taken in the state reached by one `send-packet`. -/
theorem registry_never_shrinks_witness :
    ((∀ pkt ∈ [(⟨1, Val.num 0, Val.num 1, [Val.num 0, Val.num 1], Val.null, 1⟩ : Packet),
          ⟨2, Val.num 0, Val.num 0, [Val.num 0], Val.null, 0⟩],
        pkt.progress < (pkt.path.length : Int)) ∧
      ReachableState (sendPacket State.init (Val.num 0) (Val.num 0) Val.null 2).1 ∧
      Step (sendPacket State.init (Val.num 0) (Val.num 0) Val.null 2).1
        (advance (sendPacket State.init (Val.num 0) (Val.num 0) Val.null 2).1).1) ∧
    (advancePackets [(⟨1, Val.num 0, Val.num 1, [Val.num 0, Val.num 1], Val.null, 1⟩ : Packet),
        ⟨2, Val.num 0, Val.num 0, [Val.num 0], Val.null, 0⟩]).length = 2 ∧
    (sendPacket State.init (Val.num 0) (Val.num 0) Val.null 2).1.packets.length ≤
      (advance (sendPacket State.init (Val.num 0) (Val.num 0) Val.null 2).1).1.packets.length :=
  by
  have h := registry_never_shrinks
    [⟨1, Val.num 0, Val.num 1, [Val.num 0, Val.num 1], Val.null, 1⟩,
      ⟨2, Val.num 0, Val.num 0, [Val.num 0], Val.null, 0⟩]
    (sendPacket State.init (Val.num 0) (Val.num 0) Val.null 2).1
    (advance (sendPacket State.init (Val.num 0) (Val.num 0) Val.null 2).1).1 (by decide)
    (ReachableState.step ReachableState.init (Step.sendPacket _ _ _ _ _)) (Step.advance _)
  exact ⟨⟨by decide, ReachableState.step ReachableState.init (Step.sendPacket _ _ _ _ _),
    Step.advance _⟩, h.1, h.2.2⟩

/-! ## Connections are undirected: claim -/

section Undirected

variable {α : Type} [DecidableEq α]

theorem neighbors_cons (c : Conn α) (cs : List (Conn α)) (last : α) :
    neighbors (c :: cs) last = neighbors [c] last ++ neighbors cs last := by
  unfold neighbors
  rw [← List.map_append, ← List.filter_append]
  rfl

theorem neighbors_swap (c : Conn α) (last : α) :
    neighbors [c.swap] last = neighbors [c] last := by
  unfold neighbors Conn.swap
  by_cases h1 : c.from_ = last <;> by_cases h2 : c.to_ = last <;>
    simp [List.filter_cons, h1, h2]

theorem neighbors_swapSome (edges : List (Conn α)) (last : α) :
    ∀ mask : List Bool, neighbors (swapSome mask edges) last = neighbors edges last := by
  induction edges with
  | nil => intro mask; cases mask <;> rfl
  | cons c cs ih =>
    intro mask
    cases mask with
    | nil => rfl
    | cons b bs =>
      simp only [swapSome]
      rw [neighbors_cons, neighbors_cons c cs, ih bs]
      cases b
      · rfl
      · simp only [if_true]
        rw [neighbors_swap]

theorem swapSome_length (edges : List (Conn α)) :
    ∀ mask : List Bool, (swapSome mask edges).length = edges.length := by
  induction edges with
  | nil => intro mask; cases mask <;> rfl
  | cons c cs ih =>
    intro mask
    cases mask with
    | nil => rfl
    | cons b bs => simp [swapSome, ih bs]

theorem endpoints_length (edges : List (Conn α)) :
    (endpoints edges).length = 2 * edges.length := by
  unfold endpoints
  induction edges with
  | nil => rfl
  | cons c cs ih =>
    simp only [List.flatMap_cons, List.length_append, List.length_cons, List.length_nil, ih]
    omega

theorem bfsLoop_congr {e₁ e₂ : List (Conn α)} (h : ∀ last, neighbors e₁ last = neighbors e₂ last)
    (to_ : α) :
    ∀ (fuel : Nat) (queue : List (List α)) (visited : List α),
      bfsLoop e₁ to_ fuel queue visited = bfsLoop e₂ to_ fuel queue visited := by
  intro fuel
  induction fuel with
  | zero => intro queue visited; rfl
  | succ fuel ih =>
    intro queue visited
    cases queue with
    | nil => rfl
    | cons path queue =>
      cases hl : path.getLast? with
      | none => simp only [bfsLoop, hl]; exact ih _ _
      | some last =>
        by_cases hto : last = to_
        · simp only [bfsLoop, hl, hto, if_true]
        · simp only [bfsLoop, hl, hto, if_false, h last]
          exact ih _ _

theorem isWalk_reverse {edges : List (Conn α)} {a b : α} {w : List α}
    (h : IsWalk edges a b w) : IsWalk edges b a w.reverse := by
  refine ⟨?_, ?_, ?_⟩
  · rw [List.head?_reverse]; exact h.2.1
  · rw [List.getLast?_reverse]; exact h.1
  · rw [List.chain'_reverse]
    refine List.Chain'.imp ?_ h.2.2
    rintro x y ⟨c, hc, hxy | hxy⟩
    · exact ⟨c, hc, Or.inr ⟨hxy.2, hxy.1⟩⟩
    · exact ⟨c, hc, Or.inl ⟨hxy.2, hxy.1⟩⟩

theorem bfs_length_symm (edges : List (Conn α)) (a b : α) :
    (bfs edges a b).map List.length = (bfs edges b a).map List.length := by
  rcases bfs_spec edges a b with ⟨p, hp, hwp, hminp⟩ | ⟨hn, hnot⟩
  · rcases bfs_spec edges b a with ⟨q, hq, hwq, hminq⟩ | ⟨_, hnot'⟩
    · have h1 := hminp _ (isWalk_reverse hwq)
      have h2 := hminq _ (isWalk_reverse hwp)
      rw [List.length_reverse] at h1 h2
      rw [hp, hq]
      simp only [Option.map_some', Option.some.injEq]
      omega
    · exact absurd ⟨_, isWalk_reverse hwp⟩ hnot'
  · rcases bfs_spec edges b a with ⟨q, _, hwq, _⟩ | ⟨hn', _⟩
    · exact absurd ⟨_, isWalk_reverse hwq⟩ hnot
    · rw [hn, hn']

end Undirected

/-- C19. Connections are undirected for `findPath`: exchanging the `from` and
`to` fields of any selection of the connections leaves the result, path or
`null`, unchanged; and `findPath(a, b)` returns a path exactly when
`findPath(b, a)` does, the two paths having the same length. -/
theorem findPath_undirected {α : Type} [DecidableEq α] (connections : List (Conn α))
    (mask : List Bool) (from_ to_ a b : α) :
    findPath (swapSome mask connections) from_ to_ = findPath connections from_ to_ ∧
      (findPath connections a b).map List.length =
        (findPath connections b a).map List.length := by
  refine ⟨?_, bfs_length_symm connections a b⟩
  unfold findPath bfs
  have hfuel : searchFuel (swapSome mask connections) = searchFuel connections := by
    unfold searchFuel
    rw [endpoints_length, endpoints_length, swapSome_length]
  rw [hfuel, bfsLoop_congr (fun last => neighbors_swapSome connections last mask)]

/-! ## Marking on dequeue against marking on enqueue: claim -/

section MarkOnEnqueue

variable {α : Type} [DecidableEq α]

theorem firstArrivals_congr :
    ∀ (l : List (List α)) (v v' : List α), (∀ x, x ∈ v ↔ x ∈ v') →
      firstArrivals v l = firstArrivals v' l := by
  intro l
  induction l with
  | nil => intro v v' _; rfl
  | cons p ps ih =>
    intro v v' h
    cases hl : p.getLast? with
    | none => simp only [firstArrivals, hl]; exact ih v v' h
    | some x =>
      by_cases hx : x ∈ v
      · simp only [firstArrivals, hl, hx, (h x).1 hx, if_true]
        exact ih v v' h
      · have hx' : x ∉ v' := fun e => hx ((h x).2 e)
        simp only [firstArrivals, hl, hx, hx', if_false]
        rw [ih (x :: v) (x :: v') (fun y => by simp [h y])]

theorem lastsOf_cons_some {p : List α} {x : α} (ps : List (List α))
    (h : p.getLast? = some x) : lastsOf (p :: ps) = x :: lastsOf ps := by
  simp [lastsOf, List.filterMap_cons, h]

theorem lastsOf_cons_none {p : List α} (ps : List (List α))
    (h : p.getLast? = none) : lastsOf (p :: ps) = lastsOf ps := by
  simp [lastsOf, List.filterMap_cons, h]

theorem lastsOf_append (a b : List (List α)) : lastsOf (a ++ b) = lastsOf a ++ lastsOf b := by
  simp [lastsOf, List.filterMap_append]

theorem mem_lastsOf {q : List (List α)} {x : α} :
    x ∈ lastsOf q ↔ ∃ p ∈ q, p.getLast? = some x := by
  simp [lastsOf, List.mem_filterMap]

theorem mem_lastsOf_children {edges : List (Conn α)} {visited path : List α} {last x : α} :
    x ∈ lastsOf (children edges visited path last) ↔ Adj edges last x ∧ x ∉ visited := by
  rw [mem_lastsOf]
  constructor
  · rintro ⟨p, hp, hx⟩
    obtain ⟨n, hadj, hnv, rfl⟩ := mem_children.1 hp
    have : n = x := by simpa using hx
    rw [← this]
    exact ⟨hadj, hnv⟩
  · rintro ⟨hadj, hnv⟩
    exact ⟨path ++ [x], mem_children.2 ⟨x, hadj, hnv, rfl⟩, by simp⟩

theorem firstArrivals_append :
    ∀ (a b : List (List α)) (v : List α),
      firstArrivals v (a ++ b) = firstArrivals v a ++ firstArrivals (lastsOf a ++ v) b := by
  intro a
  induction a with
  | nil => intro b v; rfl
  | cons p ps ih =>
    intro b v
    cases hl : p.getLast? with
    | none =>
      simp only [List.cons_append, firstArrivals, hl, lastsOf_cons_none ps hl, List.append_eq]
      exact ih b v
    | some x =>
      rw [lastsOf_cons_some ps hl]
      by_cases hx : x ∈ v
      · simp only [List.cons_append, firstArrivals, hl, hx, if_true, List.append_eq]
        rw [ih b v]
        congr 1
        refine firstArrivals_congr b _ _ (fun y => ?_)
        simp only [List.mem_append, List.mem_cons]
        constructor
        · tauto
        · rintro (rfl | h)
          · exact Or.inr hx
          · exact h
      · simp only [List.cons_append, firstArrivals, hl, hx, if_false, List.append_eq]
        rw [ih b (x :: v)]
        congr 2
        refine firstArrivals_congr b _ _ (fun y => ?_)
        simp only [List.mem_append, List.mem_cons]
        tauto

theorem firstArrivals_filter (path : List α) (vl : List α) :
    ∀ (ns : List α) (w : List α), (∀ x ∈ vl, x ∈ w) →
      firstArrivals w ((ns.filter (fun n => decide (n ∉ vl))).map (fun n => path ++ [n])) =
        firstArrivals w (ns.map (fun n => path ++ [n])) := by
  intro ns
  induction ns with
  | nil => intro w _; rfl
  | cons n ns ih =>
    intro w hw
    have hlast : (path ++ [n]).getLast? = some n := by simp
    by_cases hn : n ∈ vl
    · have hnw : n ∈ w := hw n hn
      simp only [List.filter_cons, hn, not_true_eq_false, decide_False, List.map_cons,
        firstArrivals, hlast, hnw, if_true]
      simpa using ih w hw
    · by_cases hnw : n ∈ w
      · simp only [List.filter_cons, hn, not_false_eq_true, decide_True, if_true, List.map_cons,
          firstArrivals, hlast, hnw]
        exact ih w hw
      · simp only [List.filter_cons, hn, not_false_eq_true, decide_True, if_true, List.map_cons,
          firstArrivals, hlast, hnw, if_false]
        rw [ih (n :: w) (fun x hx => List.mem_cons_of_mem _ (hw x hx))]

theorem firstArrivals_eq_nil :
    ∀ (l : List (List α)) (w : List α), (∀ x ∈ lastsOf l, x ∈ w) → firstArrivals w l = [] := by
  intro l
  induction l with
  | nil => intro w _; rfl
  | cons p ps ih =>
    intro w h
    cases hl : p.getLast? with
    | none =>
      simp only [firstArrivals, hl]
      exact ih w (fun x hx => h x (by rw [lastsOf_cons_none ps hl]; exact hx))
    | some x =>
      rw [lastsOf_cons_some ps hl] at h
      have hx : x ∈ w := h x (List.mem_cons_self _ _)
      simp only [firstArrivals, hl, hx, if_true]
      exact ih w (fun y hy => h y (List.mem_cons_of_mem _ hy))

theorem enqueueNew_spec (path : List α) :
    ∀ (ns : List α) (queue : List (List α)) (visited : List α),
      (enqueueNew path ns (queue, visited)).1 =
          queue ++ firstArrivals visited (ns.map (fun n => path ++ [n])) ∧
        ∀ x, x ∈ (enqueueNew path ns (queue, visited)).2 ↔ x ∈ visited ∨ x ∈ ns := by
  intro ns
  induction ns with
  | nil => intro queue visited; simp [enqueueNew, firstArrivals]
  | cons n ns ih =>
    intro queue visited
    have hlast : (path ++ [n]).getLast? = some n := by simp
    by_cases hn : n ∈ visited
    · simp only [enqueueNew, hn, if_true, List.map_cons, firstArrivals, hlast]
      refine ⟨(ih queue visited).1, fun x => ?_⟩
      rw [(ih queue visited).2 x, List.mem_cons]
      constructor
      · intro h; rcases h with h | h
        · exact Or.inl h
        · exact Or.inr (Or.inr h)
      · intro h; rcases h with h | rfl | h
        · exact Or.inl h
        · exact Or.inl hn
        · exact Or.inr h
    · simp only [enqueueNew, hn, if_false, List.map_cons, firstArrivals, hlast]
      refine ⟨?_, fun x => ?_⟩
      · rw [(ih _ _).1, List.append_assoc]
        rfl
      · rw [(ih _ _).2 x, List.mem_cons, List.mem_cons]
        constructor
        · intro h; rcases h with (rfl | h) | h
          · exact Or.inr (Or.inl rfl)
          · exact Or.inl h
          · exact Or.inr (Or.inr h)
        · intro h; rcases h with h | rfl | h
          · exact Or.inl (Or.inr h)
          · exact Or.inl (Or.inl rfl)
          · exact Or.inr h

theorem bfsLoopEnq_fuel_succ (edges : List (Conn α)) (to_ : α) :
    ∀ (fuel : Nat) (queue : List (List α)) (visited : List α) (r : Option (List α)),
      bfsLoopEnq edges to_ fuel queue visited = some r →
      bfsLoopEnq edges to_ (fuel + 1) queue visited = some r := by
  intro fuel
  induction fuel with
  | zero => intro queue visited r h; simp [bfsLoopEnq] at h
  | succ fuel ih =>
    intro queue visited r h
    cases queue with
    | nil => simpa [bfsLoopEnq] using h
    | cons path queue =>
      cases hl : path.getLast? with
      | none =>
        simp only [bfsLoopEnq, hl] at h
        rw [bfsLoopEnq]
        simp only [hl]
        exact ih _ _ _ h
      | some last =>
        by_cases hto : last = to_
        · simp only [bfsLoopEnq, hl, hto, if_true] at h
          rw [bfsLoopEnq]
          simp only [hl, hto, if_true]
          exact h
        · simp only [bfsLoopEnq, hl, hto, if_false] at h
          rw [bfsLoopEnq]
          simp only [hl, hto, if_false]
          exact ih _ _ _ h

theorem EnqSim.start (edges : List (Conn α)) (from_ to_ : α) :
    EnqSim edges to_ [[from_]] [] [[from_]] [from_] where
  queue := by simp [firstArrivals]
  marked := by intro x; simp [lastsOf]
  closed := by intro y hy; cases hy
  target := by simp
  nonempty := by simp

/-- The fields of the relation that do not depend on the marking search,
after one iteration of `bfsLoop`. -/
theorem EnqSim.frame {edges : List (Conn α)} {to_ : α} {q : List α} {rest : List (List α)}
    {vl : List α} {qs : List (List α)} {vs : List α} {y : α}
    (sim : EnqSim edges to_ (q :: rest) vl qs vs) (hl : q.getLast? = some y) (hto : y ≠ to_) :
    (∀ y' ∈ y :: vl, ∀ n, Adj edges y' n →
        n ∈ y :: vl ∨ n ∈ lastsOf (rest ++ children edges (y :: vl) q y)) ∧
      to_ ∉ y :: vl ∧ ∀ p ∈ rest ++ children edges (y :: vl) q y, p ≠ [] := by
  refine ⟨?_, ?_, ?_⟩
  · intro y' hy' n hadj
    rw [lastsOf_append, List.mem_append]
    rcases List.mem_cons.1 hy' with rfl | hy'
    · by_cases hn : n ∈ y' :: vl
      · exact Or.inl hn
      · exact Or.inr (Or.inr (mem_lastsOf_children.2 ⟨hadj, hn⟩))
    · rcases sim.closed y' hy' n hadj with h | h
      · exact Or.inl (List.mem_cons_of_mem _ h)
      · rw [lastsOf_cons_some rest hl] at h
        rcases List.mem_cons.1 h with rfl | h
        · exact Or.inl (List.mem_cons_self _ _)
        · exact Or.inr (Or.inl h)
  · intro h
    rcases List.mem_cons.1 h with h | h
    · exact hto h.symm
    · exact sim.target h
  · intro p hp
    rcases List.mem_append.1 hp with hp | hp
    · exact sim.nonempty p (List.mem_cons_of_mem _ hp)
    · obtain ⟨n, _, _, rfl⟩ := mem_children.1 hp
      simp

/-- An entry whose last node is already visited: `bfsLoop` takes an
iteration that the marking search does not have to follow. -/
theorem EnqSim.skip {edges : List (Conn α)} {to_ : α} {q : List α} {rest : List (List α)}
    {vl : List α} {qs : List (List α)} {vs : List α} {y : α}
    (sim : EnqSim edges to_ (q :: rest) vl qs vs) (hl : q.getLast? = some y) (hto : y ≠ to_)
    (hy : y ∈ vl) :
    EnqSim edges to_ (rest ++ children edges (y :: vl) q y) (y :: vl) qs vs := by
  have hchild : ∀ x ∈ lastsOf (children edges (y :: vl) q y), x ∈ lastsOf rest := by
    intro x hx
    obtain ⟨hadj, hnv⟩ := mem_lastsOf_children.1 hx
    rcases sim.closed y hy x hadj with h | h
    · exact absurd (List.mem_cons_of_mem _ h) hnv
    · rw [lastsOf_cons_some rest hl] at h
      rcases List.mem_cons.1 h with rfl | h
      · exact absurd (List.mem_cons_self _ _) hnv
      · exact h
  obtain ⟨hclosed, htarget, hne⟩ := sim.frame hl hto
  refine ⟨?_, ?_, hclosed, htarget, hne⟩
  · rw [sim.queue, firstArrivals_append]
    have h1 : firstArrivals vl (q :: rest) = firstArrivals vl rest := by
      simp only [firstArrivals, hl, hy, if_true]
    have h2 : firstArrivals (y :: vl) rest = firstArrivals vl rest :=
      firstArrivals_congr rest _ _ (fun x => by
        simp only [List.mem_cons]
        constructor
        · rintro (rfl | h)
          · exact hy
          · exact h
        · exact Or.inr)
    have h3 : firstArrivals (lastsOf rest ++ (y :: vl)) (children edges (y :: vl) q y) = [] :=
      firstArrivals_eq_nil _ _ (fun x hx => List.mem_append_left _ (hchild x hx))
    rw [h1, h2, h3, List.append_nil]
  · intro x
    rw [sim.marked x, lastsOf_cons_some rest hl, lastsOf_append]
    simp only [List.mem_cons, List.mem_append]
    constructor
    · rintro (h | rfl | h)
      · exact Or.inl (Or.inr h)
      · exact Or.inl (Or.inl rfl)
      · exact Or.inr (Or.inl h)
    · rintro ((rfl | h) | h | h)
      · exact Or.inl hy
      · exact Or.inl h
      · exact Or.inr (Or.inr h)
      · exact Or.inr (Or.inr (hchild x h))

/-- An entry whose last node is not visited yet: both searches process it. -/
theorem EnqSim.both {edges : List (Conn α)} {to_ : α} {q : List α} {rest : List (List α)}
    {vl : List α} {qs : List (List α)} {vs : List α} {y : α}
    (sim : EnqSim edges to_ (q :: rest) vl qs vs) (hl : q.getLast? = some y) (hto : y ≠ to_)
    (hy : y ∉ vl) :
    qs = q :: firstArrivals (y :: vl) rest ∧
      EnqSim edges to_ (rest ++ children edges (y :: vl) q y) (y :: vl)
        (enqueueNew q (neighbors edges y) (firstArrivals (y :: vl) rest, vs)).1
        (enqueueNew q (neighbors edges y) (firstArrivals (y :: vl) rest, vs)).2 := by
  have hqs : qs = q :: firstArrivals (y :: vl) rest := by
    rw [sim.queue]
    simp only [firstArrivals, hl, hy, if_false]
  have hvs : ∀ x, x ∈ lastsOf rest ++ (y :: vl) ↔ x ∈ vs := by
    intro x
    rw [sim.marked x, lastsOf_cons_some rest hl]
    simp only [List.mem_cons, List.mem_append]
    tauto
  obtain ⟨hclosed, htarget, hne⟩ := sim.frame hl hto
  obtain ⟨hq, hm⟩ := enqueueNew_spec q (neighbors edges y) (firstArrivals (y :: vl) rest) vs
  refine ⟨hqs, ?_, ?_, hclosed, htarget, hne⟩
  · rw [hq, firstArrivals_append]
    congr 1
    unfold children
    rw [firstArrivals_filter q (y :: vl) (neighbors edges y) _
      (fun x hx => List.mem_append_right _ hx)]
    exact (firstArrivals_congr _ _ _ hvs).symm
  · intro x
    rw [hm x, ← hvs x, lastsOf_append, mem_neighbors]
    simp only [List.mem_append, mem_lastsOf_children]
    constructor
    · rintro ((h | h) | h)
      · exact Or.inr (Or.inl h)
      · exact Or.inl h
      · by_cases hx : x ∈ y :: vl
        · exact Or.inl hx
        · exact Or.inr (Or.inr ⟨h, hx⟩)
    · rintro (h | h | h)
      · exact Or.inl (Or.inr h)
      · exact Or.inl (Or.inl h)
      · exact Or.inr h.1

/-- Whatever `bfsLoop` returns within some fuel, the marking search returns
within the same fuel from the corresponding state. -/
theorem bfsLoop_enq_sim (edges : List (Conn α)) (to_ : α) :
    ∀ (fuel : Nat) (ql : List (List α)) (vl : List α) (qs : List (List α)) (vs : List α)
      (r : Option (List α)), EnqSim edges to_ ql vl qs vs →
      bfsLoop edges to_ fuel ql vl = some r → bfsLoopEnq edges to_ fuel qs vs = some r := by
  intro fuel
  induction fuel with
  | zero => intro ql vl qs vs r _ h; simp [bfsLoop] at h
  | succ fuel ih =>
    intro ql vl qs vs r sim h
    cases ql with
    | nil =>
      have hqs : qs = [] := by rw [sim.queue]; rfl
      simp only [bfsLoop, Option.some.injEq] at h
      rw [hqs, ← h]
      rfl
    | cons q rest =>
      obtain ⟨y, hl⟩ : ∃ y, q.getLast? = some y :=
        ⟨q.getLast (sim.nonempty q (List.mem_cons_self _ _)), List.getLast?_eq_getLast _ _⟩
      by_cases hto : y = to_
      · simp only [bfsLoop, hl, hto, if_true, Option.some.injEq] at h
        have hy : y ∉ vl := by rw [hto]; exact sim.target
        have hqs : qs = q :: firstArrivals (y :: vl) rest := by
          rw [sim.queue]
          simp only [firstArrivals, hl, hy, if_false]
        rw [hqs, bfsLoopEnq]
        simp only [hl, hto, if_true, h]
      · simp only [bfsLoop, hl, hto, if_false] at h
        by_cases hy : y ∈ vl
        · exact bfsLoopEnq_fuel_succ edges to_ fuel qs vs r
            (ih _ _ qs vs r (sim.skip hl hto hy) h)
        · obtain ⟨hqs, sim'⟩ := sim.both hl hto hy
          rw [hqs, bfsLoopEnq]
          simp only [hl, hto, if_false]
          exact ih _ _ _ _ r sim' h

end MarkOnEnqueue

/-- C18. Marking nodes on dequeue is harmless: for every connections list
and every `from_` and `to_`, `findPath` returns exactly what the search that
marks a node when it enqueues it, and so never enqueues a node twice,
returns: the same path, or `null` in both cases.  That search, too, ends
within `searchFuel` iterations. -/
theorem findPath_eq_markOnEnqueue {α : Type} [DecidableEq α] (connections : List (Conn α))
    (from_ to_ : α) :
    findPath connections from_ to_ = findPathMarkOnEnqueue connections from_ to_ ∧
      bfsLoopEnq connections to_ (searchFuel connections) [[from_]] [from_] =
        some (findPathMarkOnEnqueue connections from_ to_) := by
  have hrun : bfsLoop connections to_ (searchFuel connections) [[from_]] [] =
      some (bfs connections from_ to_) := bfsLoop_fuel_enough connections from_ to_ 0
  have henq := bfsLoop_enq_sim connections to_ _ _ _ _ _ _
    (EnqSim.start connections from_ to_) hrun
  have heq : findPathMarkOnEnqueue connections from_ to_ = bfs connections from_ to_ := by
    unfold findPathMarkOnEnqueue
    rw [henq]
    rfl
  exact ⟨heq.symm, by rw [heq]; exact henq⟩

end NetSim
